import Mathlib

/-!
Verification development for the know-rag-nest retrieval pipeline.

The TypeScript sources are shallowly embedded:
* JS strings become `List Char` (`JStr`); the sources only manipulate BMP
  characters, where `Char.toNat` agrees with the UTF-16 code unit.
* JS `number` arithmetic is modelled over `ℚ`; the one genuinely
  irrational operation, `Math.sqrt`, is passed in as an explicit function
  parameter `sqrt : ℚ → ℚ`, and every theorem below quantifies over it
  (none of the verified properties depend on the value of a square root).
* `async` I/O (axios calls, the Milvus client) is modelled by explicit
  oracle inputs of type `Remote α`: the remote side either threw or
  returned a payload.  Everything downstream of the oracle is translated
  from the source line by line.
* Thrown JS exceptions become `Except String`; the per-service event logs
  (`Ev`) record which external capabilities a pipeline invoked, in order.
-/

/-- JS strings as lists of characters (UTF-16 code units; all inputs used
here are in the BMP where `Char` matches a single code unit). -/
abbrev JStr := List Char

/-- Convert a Lean string literal to the `JStr` model. -/
def str (s : String) : JStr := s.data

/-- Whitespace recognized by JS `String.prototype.trim` and `\s`
(space, tab, LF, VT, FF, CR, NBSP, and the Unicode space separators). -/
def isJsWs (c : Char) : Bool :=
  (c.toNat == 32) || (9 ≤ c.toNat && c.toNat ≤ 13) || (c.toNat == 160) ||
  (c.toNat == 0x1680) || (0x2000 ≤ c.toNat && c.toNat ≤ 0x200A) ||
  (c.toNat == 0x2028) || (c.toNat == 0x2029) || (c.toNat == 0x202F) ||
  (c.toNat == 0x205F) || (c.toNat == 0x3000) || (c.toNat == 0xFEFF)

/-- JS `s.trim()`: drop leading and trailing whitespace. -/
def jsTrim (s : JStr) : JStr :=
  ((s.dropWhile isJsWs).reverse.dropWhile isJsWs).reverse

/-- Sentence-terminal punctuation of the `/[.!?]+/` split regexes. -/
def isTermC (c : Char) : Bool := (c == '.') || (c == '!') || (c == '?')

/-- Split a string at every character satisfying `p`.

The sources split with `/[.!?]+/` (and `/\s+/`), i.e. on *runs* of such
characters; splitting at every single character instead inserts extra
empty pieces between adjacent separators.  Every consumer in the sources
immediately discards blank pieces (the chunkers filter on
`trim().length > 0`, the keyword fallback guards on `word.length > 3`),
so the composed values are identical; we keep the simpler per-character
split. -/
def splitOnP (p : Char → Bool) : JStr → List JStr
  | [] => [[]]
  | c :: rest =>
    let ps := splitOnP p rest
    if p c then [] :: ps else (c :: ps.headD []) :: ps.tail

/-- JS `Array.prototype.join(sep)`. -/
def joinSep (sep : JStr) : List JStr → JStr
  | [] => []
  | s :: rest => rest.foldl (fun acc x => acc ++ sep ++ x) s

/-- JS `a.startsWith(b)` on the list model (`b` is the candidate text). -/
def jsStartsWith : JStr → JStr → Bool
  | [], _ => true
  | _ :: _, [] => false
  | a :: as, b :: bs => (a == b) && jsStartsWith as bs

/-- JS `s.includes(pat)` (substring containment). -/
def jsIncludes (pat : JStr) : JStr → Bool
  | [] => pat.isEmpty
  | c :: rest => jsStartsWith pat (c :: rest) || jsIncludes pat rest

/-- JS `s.toLowerCase()` (the sources only lowercase ASCII content). -/
def jsToLower (s : JStr) : JStr := s.map Char.toLower

/-- JS `x || y` on strings: empty strings are falsy. -/
def jsOrS (a b : JStr) : JStr := if a = [] then b else a

/-- JS `x || y` on optional numbers: `undefined` and `0` are falsy. -/
def jsOrN (a : Option ℚ) (b : ℚ) : ℚ :=
  match a with
  | none => b
  | some x => if x = 0 then b else x

/-- Decimal rendering of a `chunkIndex` (`Nat`), as produced by a JS
template literal; fuel-structural so the kernel can evaluate it. -/
def natToDecAux : Nat → Nat → JStr
  | 0, _ => []
  | _ + 1, 0 => []
  | fuel + 1, n => natToDecAux fuel (n / 10) ++ [Char.ofNat (48 + n % 10)]

/-- Decimal rendering of a natural number, `` `${n}` `` in JS. -/
def natToDec (n : Nat) : JStr := if n = 0 then ['0'] else natToDecAux n n

/-- Lowercase hex digit for a value below 16. -/
def hexDigitCh (d : Nat) : Char :=
  if d < 10 then Char.ofNat (48 + d) else Char.ofNat (87 + d)

/-- Two-digit lowercase hex rendering of one byte, as in Node
`Buffer.prototype.toString('hex')`. -/
def hexByte (b : Nat) : JStr := [hexDigitCh (b / 16), hexDigitCh (b % 16)]

/-- Node `buf.toString('hex')` over the byte list. -/
def hexEncode : List Nat → JStr
  | [] => []
  | b :: rest => hexByte b ++ hexEncode rest

/-! ## Embedder (`src/embeddings.service.ts`, 1536-d variant, namespace `ES`;
`src/app.module.ts` second half, 384-d variant, namespace `AM`) -/

/-- Outcome of one remote HTTP call: the promise rejected (JS `throw`
caught by the surrounding `catch`), or resolved with a payload. -/
inductive Remote (α : Type) where
  | throw (msg : String)
  | ok (a : α)
deriving DecidableEq

/-- `(hash << 5) - hash + char` with `hash & hash`: wrap an integer to a
signed 32-bit value as JS bitwise operators do. -/
def toInt32 (n : Int) : Int :=
  let m := n.emod (2 ^ 32)
  if m < 2 ^ 31 then m else m - 2 ^ 32

/-- `simpleHash` of both embedder variants: polynomial rolling hash over
the UTF-16 code units, wrapped to 32 bits each step, absolute value. -/
def simpleHash (s : JStr) : Nat :=
  (s.foldl (fun h c => toInt32 (toInt32 (h * 32) - h + c.toNat)) 0).natAbs

/-- One step of the linear congruential generator
`seed = (seed * 9301 + 49297) % 233280`. -/
def lcgStep (seed : Nat) : Nat := (seed * 9301 + 49297) % 233280

/-- The loop `for i in 0..dim: seed = lcgStep seed;
v[i] = (seed / 233280) * 2 - 1`. -/
def lcgVec (seed : Nat) : Nat → List ℚ
  | 0 => []
  | n + 1 =>
    let s := lcgStep seed
    ((s : ℚ) / 233280 * 2 - 1) :: lcgVec s n

/-- `reduce((sum, val) => sum + val * val, 0)`. -/
def sumSq (v : List ℚ) : ℚ := v.foldl (fun acc x => acc + x * x) 0

/-- `generateSimpleEmbedding` of both variants, parameterized by the
target dimension (1536 in `embeddings.service.ts`, 384 in
`app.module.ts`): LCG fill seeded by `simpleHash`, then division by the
L2 magnitude. -/
def simpleEmbedding (sqrt : ℚ → ℚ) (dim : Nat) (text : JStr) : List ℚ :=
  let embedding := lcgVec (simpleHash text) dim
  let magnitude := sqrt (sumSq embedding)
  embedding.map (fun v => v / magnitude)

/-- `EmbeddingsService.generateSimpleEmbedding` (1536 dimensions). -/
def ES.generateSimpleEmbedding (sqrt : ℚ → ℚ) (text : JStr) : List ℚ :=
  simpleEmbedding sqrt 1536 text

/-- `app.module.ts` `generateSimpleEmbedding` (384 dimensions). -/
def AM.generateSimpleEmbedding (sqrt : ℚ → ℚ) (text : JStr) : List ℚ :=
  simpleEmbedding sqrt 384 text

/-- Remote outcomes seen by one attempt of
`EmbeddingsService.generateEmbedding`:
* `dedicated`: the `/api/embeddings` call; `.ok none` means the response
  resolved but `data?.embedding` was absent, `.ok (some e)` carries the
  returned vector.
* `llama`: the `/api/generate` call; `.ok none` means no
  `data?.response` field; `.ok (some nums)` carries the numeric values
  parsed out of the free-text response by the `-?\d*\.?\d+` global scan and
  `parseFloat` (each matched token contains a digit, so `parseFloat`
  never yields `NaN` on it; the response text is remote nondeterminism,
  so the oracle ranges over every possible parsed list). -/
structure ES.Env where
  dedicated : Remote (Option (List ℚ))
  llama : Remote (Option (List ℚ))

/-- One iteration of the retry loop body of
`EmbeddingsService.generateEmbedding` (lines 33–188): dedicated tier,
Llama-as-embedder tier, then the deterministic hash fallback.  A JS
exception escaping the body would be `.error`; both remote calls sit in
inner `try`/`catch` blocks whose handlers only log and fall through. -/
def ES.attemptBody (sqrt : ℚ → ℚ) (env : ES.Env) (text : JStr) :
    Except String (List ℚ) :=
  -- try: dedicated embedding model; `if (embeddingResponse.data?.embedding) return it`
  match env.dedicated with
  | .ok (some e) => .ok e
  | _ =>
    -- catch (embeddingError): logged, fall through to the Llama tier
    match env.llama with
    | .ok (some nums) =>
      if 50 ≤ nums.length then
        -- take the first 100 numbers, clamp each to [-1, 1]
        let embedding := (nums.take 100).map (fun v => max (-1) (min 1 v))
        -- expand to 1536 dimensions by cyclic repetition plus drift
        let fullEmbedding := (List.range 1536).map (fun i =>
          embedding.getD (i % embedding.length) 0 +
            (i : ℚ) / (embedding.length : ℚ) * (1 / 10))
        let magnitude := sqrt (sumSq fullEmbedding)
        if 0 < magnitude then
          .ok (fullEmbedding.map (fun v => v / magnitude))
        else
          -- fell out of the inner `if`: final fallback below
          .ok (ES.generateSimpleEmbedding sqrt text)
      else
        -- `Not enough numbers found`: fall through to the final fallback
        .ok (ES.generateSimpleEmbedding sqrt text)
    | _ =>
      -- no response / llamaError caught: final fallback
      .ok (ES.generateSimpleEmbedding sqrt text)

/-- The `for (attempt = 1; attempt <= retries; attempt++)` wrapper of
`generateEmbedding`: on an uncaught body exception it backs off and
retries while `attempt < retries`, else rethrows
`Failed to generate embedding`; if the loop exhausts without either, the
JS function falls off the end and resolves with `undefined` (`.ok none`).
`envs` gives the remote outcomes seen by each attempt; the second `Nat`
is the remaining number of attempts. -/
def ES.genLoop (sqrt : ℚ → ℚ) (envs : Nat → ES.Env) (text : JStr) :
    Nat → Nat → Except String (Option (List ℚ))
  | _, 0 => .ok none
  | attempt, fuel + 1 =>
    match ES.attemptBody sqrt (envs attempt) text with
    | .ok v => .ok (some v)
    | .error msg =>
      if fuel = 0 then .error ("Failed to generate embedding: " ++ msg)
      else ES.genLoop sqrt envs text (attempt + 1) fuel

/-- `EmbeddingsService.generateEmbedding(text, retries = 3)`. -/
def ES.generateEmbedding (sqrt : ℚ → ℚ) (envs : Nat → ES.Env) (text : JStr)
    (retries : Nat := 3) : Except String (Option (List ℚ)) :=
  ES.genLoop sqrt envs text 1 retries

/-- Remote outcome for the `app.module.ts` embedder (dedicated tier only). -/
structure AM.Env where
  dedicated : Remote (Option (List ℚ))

/-- `app.module.ts` lines 86–94: coerce the remote vector to exactly 384
entries — `slice(0, 384)` if longer, `push(0)` while shorter. -/
def AM.coerce384 (e : List ℚ) : List ℚ :=
  if 384 < e.length then e.take 384
  else e ++ List.replicate (384 - e.length) 0

/-- One attempt body of the `app.module.ts` `generateEmbedding`:
dedicated tier (coerced to 384 entries) or the hash fallback. -/
def AM.attemptBody (sqrt : ℚ → ℚ) (env : AM.Env) (text : JStr) :
    Except String (List ℚ) :=
  match env.dedicated with
  | .ok (some e) => .ok (AM.coerce384 e)
  | _ => .ok (AM.generateSimpleEmbedding sqrt text)

/-- Retry wrapper of the `app.module.ts` `generateEmbedding`, same
structure as `ES.genLoop`. -/
def AM.genLoop (sqrt : ℚ → ℚ) (envs : Nat → AM.Env) (text : JStr) :
    Nat → Nat → Except String (Option (List ℚ))
  | _, 0 => .ok none
  | attempt, fuel + 1 =>
    match AM.attemptBody sqrt (envs attempt) text with
    | .ok v => .ok (some v)
    | .error msg =>
      if fuel = 0 then .error ("Failed to generate embedding: " ++ msg)
      else AM.genLoop sqrt envs text (attempt + 1) fuel

/-- `app.module.ts` `generateEmbedding(text, retries = 3)`. -/
def AM.generateEmbedding (sqrt : ℚ → ℚ) (envs : Nat → AM.Env) (text : JStr)
    (retries : Nat := 3) : Except String (Option (List ℚ)) :=
  AM.genLoop sqrt envs text 1 retries

/-! ## Chunkers (`src/text-context.service.ts` `chunkText`, namespace `TCS`;
`src/pdf.service.ts` `chunkText`, namespace `Pdf`) -/

/-- The sentence list both chunkers start from:
`text.split(/[.!?]+/).filter(s => s.trim().length > 0)`. -/
def sentencePieces (text : JStr) : List JStr :=
  (splitOnP isTermC text).filter (fun s => 0 < (jsTrim s).length)

/-- One loop iteration of `TextContextService.chunkText` (lines 46–64).
State: `(chunks so far, currentChunk)`. -/
def TCS.chunkStep (chunkSize overlap : Nat) (st : List JStr × JStr)
    (s : JStr) : List JStr × JStr :=
  let chunks := st.1
  let cc := st.2
  let t := jsTrim s
  if cc.length + t.length ≤ chunkSize then
    -- currentChunk += (currentChunk ? '. ' : '') + trimmedSentence
    (chunks, cc ++ (if cc = [] then [] else str (". ")) ++ t)
  else
    -- close the buffer (if non-empty), then seed the next one
    let chunks2 := if cc = [] then chunks else chunks ++ [cc ++ ['.']]
    if 0 < overlap ∧ chunks2 ≠ [] then
      let lastChunk := chunks2.getLastD []
      -- lastChunk.slice(-overlap)
      let overlapText := lastChunk.drop (lastChunk.length - overlap)
      (chunks2, overlapText ++ [' '] ++ t)
    else
      (chunks2, t)

/-- `TextContextService.chunkText(text, chunkSize = 500, overlap = 50)`. -/
def TCS.chunkText (text : JStr) (chunkSize : Nat := 500)
    (overlap : Nat := 50) : List JStr :=
  let r := (sentencePieces text).foldl (TCS.chunkStep chunkSize overlap) ([], [])
  if r.2 = [] then r.1 else r.1 ++ [r.2 ++ ['.']]

/-- `ChunkData` of `milvus.service.ts`. -/
structure ChunkData where
  id : JStr
  text : JStr
  embedding : List ℚ
deriving DecidableEq

/-- `TextContextService.generateId`: `randomBytes(16).toString('hex')`,
with the 16 random bytes supplied as the oracle input. -/
def TCS.generateId (bytes : List Nat) : JStr := hexEncode bytes

/-- The chunk id template `` `${documentId}_chunk_${chunkIndex}` `` of
`PdfService.chunkText`. -/
def Pdf.chunkId (docId : JStr) (i : Nat) : JStr :=
  docId ++ str ("_chunk_") ++ natToDec i

/-- One loop iteration of `PdfService.chunkText` (lines 82–100).
State: `(chunks so far, currentChunk, chunkIndex)`. -/
def Pdf.chunkStep (chunkSize : Nat) (docId : JStr)
    (st : List ChunkData × JStr × Nat) (s : JStr) : List ChunkData × JStr × Nat :=
  let chunks := st.1
  let cc := st.2.1
  let idx := st.2.2
  let t := jsTrim s
  if chunkSize < cc.length + t.length ∧ 0 < cc.length then
    (chunks ++ [⟨Pdf.chunkId docId idx, jsTrim cc, []⟩], t, idx + 1)
  else
    (chunks, cc ++ (if 0 < cc.length then str (". ") else []) ++ t, idx)

/-- `PdfService.chunkText(text, documentId, filename, chunkSize = 500)`. -/
def Pdf.chunkText (text docId filename : JStr) (chunkSize : Nat := 500) :
    List ChunkData :=
  let _ := filename  -- only used for logging in the source
  let r := (sentencePieces text).foldl (Pdf.chunkStep chunkSize docId) ([], [], 0)
  let chunks2 :=
    if 0 < (jsTrim r.2.1).length then r.1 ++ [⟨Pdf.chunkId docId r.2.2, jsTrim r.2.1, []⟩]
    else r.1
  if chunks2 = [] then [⟨Pdf.chunkId docId 0, jsTrim text, []⟩] else chunks2

/-- `PdfService.generateDocumentId`:
`` `doc_${randomBytes(8).toString('hex')}_${Date.now()}` ``, with the
random bytes and the clock reading supplied as oracle inputs. -/
def Pdf.generateDocumentId (bytes : List Nat) (now : Nat) : JStr :=
  str ("doc_") ++ hexEncode bytes ++ ['_'] ++ natToDec now

/-! ## Search hits, confidence (`ai-query.service.ts` and `part_001`) -/

/-- A Milvus search hit as consumed by the query services: similarity
`score`, the `distance` field some client versions return instead, the
`text` payload, and the `entity.text` nesting `part_001` also probes.
Absent fields are `none` / `[]`. -/
structure SearchHit where
  score : Option ℚ
  distance : Option ℚ
  text : JStr
  entityText : Option JStr
deriving DecidableEq

/-- `AiQueryService.calculateConfidence` of `ai-query.service.ts`
(lines 106–117): `0` for a missing or empty hit list, else the mean of
`result.score || 0` rescaled by 100 and clamped into `[0, 100]`. -/
def calculateConfidencePct (searchResults : Option (List SearchHit)) : ℚ :=
  match searchResults with
  | none => 0
  | some results =>
    if results.length = 0 then 0
    else
      let scores := results.map (fun r => jsOrN r.score 0)
      let avgScore := scores.foldl (fun sum s => sum + s) 0 / (scores.length : ℚ)
      min (max (avgScore * 100) 0) 100

/-- `calculateConfidence` of `part_001` (lines 156–169): `0` for a
missing or empty hit list, else the mean of
`result.score || result.distance || 0` clamped into `[0, 1]`. -/
def calculateConfidenceUnit (searchResults : Option (List SearchHit)) : ℚ :=
  match searchResults with
  | none => 0
  | some results =>
    if results.length = 0 then 0
    else
      let avgScore :=
        (results.foldl (fun sum r => sum + jsOrN r.score (jsOrN r.distance 0)) 0)
          / (results.length : ℚ)
      min 1 (max 0 avgScore)

/-! ## Query pipelines with call logs -/

/-- External capabilities a pipeline run invokes, in order; `genCall`
records the context string handed to the generation capability. -/
inductive Ev where
  | embedCall
  | searchCall
  | scanCall
  | genCall (context : JStr)
deriving DecidableEq

/-- A record returned by `MilvusService.getAllChunks`
(`output_fields: ['id', 'text']`). -/
structure StoreRec where
  id : JStr
  text : JStr
deriving DecidableEq

/-- `MilvusService.getAllChunks` (`ai-query.service.ts` concatenation,
lines 276–295): the `query` call is issued with `limit: 100` (the store
returns at most that many of its records, modelled by `take 100` on the
oracle's record list); any error is swallowed and becomes `[]`. -/
def getAllChunks (scan : Remote (List StoreRec)) : List StoreRec :=
  match scan with
  | .throw _ => []
  | .ok rs => rs.take 100

/-- Remote outcomes seen by one run of the Gemini-variant
`AiQueryService.processQuery`: the embedder's per-attempt oracles, the
Milvus search, and the Gemini completion (a malformed response body that
would make `data.candidates[0]...` throw is a `.throw` outcome). -/
structure PQ.Env where
  embed : Nat → ES.Env
  search : Remote (List SearchHit)
  gemini : Remote JStr

/-- `QueryResponse` of `ai-query.service.ts`. -/
structure PQ.Resp where
  answer : JStr
  relevantChunks : List JStr
  confidence : ℚ
deriving DecidableEq

/-- `AiQueryService.processQuery` of `ai-query.service.ts`
(lines 28–58): embed the query, search, join all hit texts with blank
lines, call Gemini, score confidence.  Any step's exception is caught by
the outer `catch` and rethrown as `Failed to process query`.  Note:
there is no validation of the incoming query string. -/
def PQ.processQuery (sqrt : ℚ → ℚ) (env : PQ.Env) (query : JStr) :
    Except String PQ.Resp × List Ev :=
  match ES.generateEmbedding sqrt env.embed query 3 with
  | .error e => (.error ("Failed to process query: " ++ e), [.embedCall])
  | .ok _ =>
    match env.search with
    | .throw m => (.error ("Failed to process query: " ++ m), [.embedCall, .searchCall])
    | .ok searchResults =>
      let relevantChunks := searchResults.map (fun r => r.text)
      let context := joinSep (str ("\n\n")) relevantChunks
      match env.gemini with
      | .throw m =>
        (.error ("Failed to process query: Failed to generate AI response: " ++ m),
         [.embedCall, .searchCall, .genCall context])
      | .ok answer =>
        (.ok ⟨answer, relevantChunks, calculateConfidencePct (some searchResults)⟩,
         [.embedCall, .searchCall, .genCall context])

/-- Remote outcomes for one run of `queryWithContext` (`part_000`). -/
structure AQ2.Env where
  embed : Nat → ES.Env
  search : Remote (List SearchHit)
  scan : Remote (List StoreRec)
  llama : Remote (Option JStr)

/-- `generateResponseWithLlama` of `part_000` (lines 82–134): a resolved
response with a truthy `data.response` is trimmed and returned; anything
else (rejection, or a missing/empty `response` field, which the source
turns into a local `throw`) is rethrown as `Failed to generate response`. -/
def AQ2.generateResponseWithLlama (llama : Remote (Option JStr)) :
    Except String JStr :=
  match llama with
  | .throw m => .error ("Failed to generate response: " ++ m)
  | .ok none =>
    .error ("Failed to generate response: No response received from Llama model")
  | .ok (some s) =>
    if s ≠ [] then .ok (jsTrim s)
    else .error ("Failed to generate response: No response received from Llama model")

/-- `AiQueryService.queryWithContext` of `part_000` (lines 35–80): embed,
search, keep the non-empty hit texts as context; if the assembled context
is empty, fall back to `getAllChunks` and use the non-empty texts of
whatever records exist; finally generate with the local Llama model.
There is no validation of the incoming query and no `sources` field in
the result — only the answer string is returned. -/
def AQ2.queryWithContext (sqrt : ℚ → ℚ) (env : AQ2.Env) (query : JStr) :
    Except String JStr × List Ev :=
  match ES.generateEmbedding sqrt env.embed query 3 with
  | .error e => (.error ("Failed to process query: " ++ e), [.embedCall])
  | .ok _ =>
    match env.search with
    | .throw m => (.error ("Failed to process query: " ++ m), [.embedCall, .searchCall])
    | .ok similarChunks =>
      let contextTexts :=
        (similarChunks.map (fun c => jsOrS c.text [])).filter (fun t => 0 < t.length)
      let context0 := joinSep (str ("\n\n")) contextTexts
      if context0.length = 0 then
        let allChunks := getAllChunks env.scan
        let allTexts :=
          (allChunks.map (fun c => jsOrS c.text [])).filter (fun t => 0 < t.length)
        let context := joinSep (str ("\n\n")) allTexts
        match AQ2.generateResponseWithLlama env.llama with
        | .error m =>
          (.error ("Failed to process query: " ++ m),
           [.embedCall, .searchCall, .scanCall, .genCall context])
        | .ok answer =>
          (.ok answer, [.embedCall, .searchCall, .scanCall, .genCall context])
      else
        match AQ2.generateResponseWithLlama env.llama with
        | .error m =>
          (.error ("Failed to process query: " ++ m),
           [.embedCall, .searchCall, .genCall context0])
        | .ok answer =>
          (.ok answer, [.embedCall, .searchCall, .genCall context0])

/-- Remote outcomes for one run of `processQuery` (`part_001`). -/
structure AQ3.Env where
  embed : Nat → ES.Env
  search : Remote (List SearchHit)
  llama : Remote (Option JStr)

/-- `QueryResponse` of `part_001`. -/
structure AQ3.Resp where
  answer : JStr
  sources : List JStr
  confidence : ℚ
deriving DecidableEq

/-- The canned no-context message of `generateFallbackResponse`
(`part_001` line 133). -/
def AQ3.cannedNoContext : JStr :=
  str ("I don\x27t have enough context information to answer your question accurately.")

/-- `generateFallbackResponse` of `part_001` (lines 131–154): the canned
message when the context is empty or whitespace, otherwise a keyword
match of long question words against the context sentences. -/
def AQ3.generateFallbackResponse (question context : JStr) : JStr :=
  if context = [] ∨ (jsTrim context).length = 0 then AQ3.cannedNoContext
  else
    let questionWords := splitOnP isJsWs (jsToLower question)
    let contextSentences :=
      (splitOnP isTermC context).filter (fun s => 0 < (jsTrim s).length)
    let relevantSentences := contextSentences.filter (fun sentence =>
      questionWords.any (fun word =>
        (3 < word.length) && jsIncludes word (jsToLower sentence)))
    if relevantSentences ≠ [] then
      str ("Based on the available context: ") ++
        joinSep (str (". ")) (relevantSentences.take 3) ++ ['.']
    else
      str ("I found some context information, but it may not directly answer your question: ")
        ++ context.take 200 ++ str ("...")

/-- `generateResponse` of `part_001` (lines 77–118): the local model is
always called first (even with an empty context); a truthy `response`
field is trimmed and returned; every failure path (rejection, missing or
empty `response`) falls back to `generateFallbackResponse`. -/
def AQ3.generateResponse (llama : Remote (Option JStr)) (question context : JStr) :
    JStr :=
  match llama with
  | .ok (some s) =>
    if s ≠ [] then jsTrim s else AQ3.generateFallbackResponse question context
  | .ok none => AQ3.generateFallbackResponse question context
  | .throw _ => AQ3.generateFallbackResponse question context

/-- `AiQueryService.processQuery` of `part_001` (lines 41–75): embed,
search, extract `result.text || result.entity?.text || ''` per hit, keep
the non-empty texts as both context and sources, generate (with the
internal fallback above), and score confidence.  No validation of the
question, and no scan fallback on zero hits. -/
def AQ3.processQuery (sqrt : ℚ → ℚ) (env : AQ3.Env) (question : JStr) :
    Except String AQ3.Resp × List Ev :=
  match ES.generateEmbedding sqrt env.embed question 3 with
  | .error e => (.error ("Failed to process query: " ++ e), [.embedCall])
  | .ok _ =>
    match env.search with
    | .throw m => (.error ("Failed to process query: " ++ m), [.embedCall, .searchCall])
    | .ok searchResults =>
      let contextTexts :=
        searchResults.map (fun r => jsOrS r.text (r.entityText.getD []))
      let context := joinSep (str ("\n\n")) (contextTexts.filter (fun t => 0 < t.length))
      let answer := AQ3.generateResponse env.llama question context
      (.ok ⟨answer, contextTexts.filter (fun t => 0 < t.length),
            calculateConfidenceUnit (some searchResults)⟩,
       [.embedCall, .searchCall, .genCall context])

/-! ## PDF service state and controller (`pdf.service.ts`, `pdf.controller.ts`) -/

/-- `PdfDocument` of `pdf.service.ts`. -/
structure PdfDoc where
  id : JStr
  filename : JStr
  uploadDate : Nat
  textContent : JStr
  chunkCount : Nat
deriving DecidableEq

/-- JS `Map.prototype.get` on an association-list model. -/
def mapGet {α : Type} : List (JStr × α) → JStr → Option α
  | [], _ => none
  | e :: rest, k => if e.1 = k then some e.2 else mapGet rest k

/-- JS `Map.prototype.delete`: removes the (unique) entry with the key. -/
def mapDelete {α : Type} : List (JStr × α) → JStr → List (JStr × α)
  | [], _ => []
  | e :: rest, k => if e.1 = k then rest else e :: mapDelete rest k

/-- The mutable state `PdfService` touches: its in-memory `documents`
map, plus the Milvus collection contents the service's chunks live in. -/
structure PdfState where
  documents : List (JStr × PdfDoc)
  milvus : List ChunkData
deriving DecidableEq

/-- `PdfService.deleteDocument` (lines 154–170): look up the id; if
absent return `false`; otherwise delete the map entry and return `true`.
The Milvus store is not touched (the source notes chunk deletion is left
for a real implementation). -/
def Pdf.deleteDocument (st : PdfState) (id : JStr) : Bool × PdfState :=
  match mapGet st.documents id with
  | none => (false, st)
  | some _ => (true, { st with documents := mapDelete st.documents id })

/-- Remote outcomes for one `PdfController.queryDocuments` request. -/
structure PdfCtl.Env where
  aq : AQ2.Env
  pdfLlm : Remote (Option JStr)

/-- The response shape of `PdfController.queryDocuments` (timestamp
omitted; `sources` are the uploaded documents' filenames). -/
structure PdfCtl.Resp where
  question : JStr
  answer : JStr
  sources : List JStr
deriving DecidableEq

/-- The `pdfContext` prompt block of `queryPdfContentOnly`. -/
def PdfCtl.pdfContext (docs : List (JStr × PdfDoc)) : JStr :=
  joinSep (str ("\n\n---\n\n"))
    (docs.map (fun d => str ("Document: ") ++ d.2.filename ++ ['\n'] ++ d.2.textContent))

/-- `PdfController.queryPdfContentOnly` (lines 99–141): a canned reply
when no documents exist; otherwise one direct generation call whose
`response?.trim()` is returned, with a fallback string when falsy. -/
def PdfCtl.queryPdfContentOnly (pdfLlm : Remote (Option JStr))
    (docs : List (JStr × PdfDoc)) : Except String JStr × List Ev :=
  if docs = [] then (.ok (str ("No PDF documents have been uploaded yet.")), [])
  else
    let ctx := PdfCtl.pdfContext docs
    match pdfLlm with
    | .throw _ => (.error ("Failed to query PDF content"), [.genCall ctx])
    | .ok r =>
      (.ok (jsOrS (jsTrim (r.getD [])) (str ("Unable to generate response"))),
       [.genCall ctx])

/-- `PdfController.queryDocuments` (lines 62–97): the only place the
empty-question validation lives —
`if (!queryDto.question || queryDto.question.trim().length === 0)`
throws `BadRequestException('Question is required')` before any
downstream call; otherwise the request is served by
`queryPdfContentOnly` or `queryWithContext`. -/
def PdfCtl.queryDocuments (sqrt : ℚ → ℚ) (env : PdfCtl.Env)
    (docs : List (JStr × PdfDoc)) (question : JStr) (pdfOnly : Bool) :
    Except String PdfCtl.Resp × List Ev :=
  if question = [] ∨ (jsTrim question).length = 0 then
    (.error ("Question is required"), [])
  else
    let r :=
      if pdfOnly then PdfCtl.queryPdfContentOnly env.pdfLlm docs
      else AQ2.queryWithContext sqrt env.aq question
    match r.1 with
    | .error m => (.error ("Failed to process query: " ++ m), r.2)
    | .ok answer =>
      (.ok ⟨question, answer, docs.map (fun d => d.2.filename)⟩, r.2)

/-! ## Auxiliary definitions used by the verification layer -/

/-- Strip trailing sentence-terminal punctuation — the
"trailing punctuation normalization" the chunking spec speaks of. -/
def dropTrailingTerm (s : JStr) : JStr := (s.reverse.dropWhile isTermC).reverse

/-- A lowercase hexadecimal digit. -/
def isHexCh (c : Char) : Bool := ('0' ≤ c && c ≤ '9') || ('a' ≤ c && c ≤ 'f')

/-- Value of a decimal digit string (used to invert `natToDec`). -/
def decVal (l : JStr) : Nat := l.foldl (fun a c => a * 10 + (c.toNat - 48)) 0

/-- The string contains at least one non-whitespace character (so JS
`trim` cannot erase it entirely). -/
def hasNonWs (l : JStr) : Prop := ∃ c ∈ l, isJsWs c = false

/-- The pieces `splitOnP isTermC` produces on a `". "`-joined sentence
list followed by a final `'.'`: the first sentence verbatim, every later
sentence with the separator's space still attached, and one empty piece
from the trailing period. -/
def piecesOf : List JStr → List JStr
  | [] => [[]]
  | s :: rest => s :: (rest.map (fun x => ' ' :: x) ++ [[]])

/-! ## Helper lemmas: embedder -/

theorem lcgVec_length (seed n : Nat) : (lcgVec seed n).length = n := by
  induction n generalizing seed with
  | zero => rfl
  | succ k ih => simp [lcgVec, ih]

theorem simpleEmbedding_length (sqrt : ℚ → ℚ) (dim : Nat) (text : JStr) :
    (simpleEmbedding sqrt dim text).length = dim := by
  simp [simpleEmbedding, lcgVec_length]

theorem AM.coerce384_length (e : List ℚ) : (AM.coerce384 e).length = 384 := by
  unfold AM.coerce384
  split
  · simp; omega
  · simp; omega

theorem ES.attemptBody_ok (sqrt : ℚ → ℚ) (env : ES.Env) (text : JStr) :
    ∃ v, ES.attemptBody sqrt env text = .ok v := by
  unfold ES.attemptBody
  repeat' first
  | exact ⟨_, rfl⟩
  | split
  | dsimp only

theorem ES.attemptBody_miss_length (sqrt : ℚ → ℚ) (env : ES.Env) (text : JStr)
    (hmiss : ∀ e, env.dedicated ≠ .ok (some e)) :
    ∃ v, ES.attemptBody sqrt env text = .ok v ∧ v.length = 1536 := by
  rcases env with ⟨ded, llama⟩
  simp only at hmiss
  unfold ES.attemptBody
  have hsimple : ∀ s, (ES.generateSimpleEmbedding sqrt s).length = 1536 := by
    intro s
    simp [ES.generateSimpleEmbedding, simpleEmbedding_length]
  cases ded with
  | throw m =>
    dsimp only
    cases llama with
    | throw m2 => exact ⟨_, rfl, hsimple text⟩
    | ok o =>
      cases o with
      | none => exact ⟨_, rfl, hsimple text⟩
      | some nums =>
        dsimp only
        split
        · split
          · exact ⟨_, rfl, by simp⟩
          · exact ⟨_, rfl, hsimple text⟩
        · exact ⟨_, rfl, hsimple text⟩
  | ok o =>
    cases o with
    | some e => exact absurd rfl (hmiss e)
    | none =>
      dsimp only
      cases llama with
      | throw m2 => exact ⟨_, rfl, hsimple text⟩
      | ok o2 =>
        cases o2 with
        | none => exact ⟨_, rfl, hsimple text⟩
        | some nums =>
          dsimp only
          split
          · split
            · exact ⟨_, rfl, by simp⟩
            · exact ⟨_, rfl, hsimple text⟩
          · exact ⟨_, rfl, hsimple text⟩

theorem ES.generateEmbedding_first1536 (sqrt : ℚ → ℚ) (envs : Nat → ES.Env)
    (text : JStr) (retries : Nat) (v : List ℚ) (h : 1 ≤ retries)
    (hb : ES.attemptBody sqrt (envs 1) text = .ok v) :
    ES.generateEmbedding sqrt envs text retries = .ok (some v) := by
  obtain ⟨fuel, rfl⟩ : ∃ f, retries = f + 1 := ⟨retries - 1, by omega⟩
  unfold ES.generateEmbedding
  simp [ES.genLoop, hb]

theorem AM.attemptBody_ok_length (sqrt : ℚ → ℚ) (env : AM.Env) (text : JStr) :
    ∃ v, AM.attemptBody sqrt env text = .ok v ∧ v.length = 384 := by
  rcases env with ⟨ded⟩
  unfold AM.attemptBody
  cases ded with
  | throw m =>
    exact ⟨_, rfl, by simp [AM.generateSimpleEmbedding, simpleEmbedding_length]⟩
  | ok o =>
    cases o with
    | none =>
      exact ⟨_, rfl, by simp [AM.generateSimpleEmbedding, simpleEmbedding_length]⟩
    | some e => exact ⟨_, rfl, AM.coerce384_length e⟩

theorem AM.generateEmbedding_first384 (sqrt : ℚ → ℚ) (envs : Nat → AM.Env)
    (text : JStr) (retries : Nat) (v : List ℚ) (h : 1 ≤ retries)
    (hb : AM.attemptBody sqrt (envs 1) text = .ok v) :
    AM.generateEmbedding sqrt envs text retries = .ok (some v) := by
  obtain ⟨fuel, rfl⟩ : ∃ f, retries = f + 1 := ⟨retries - 1, by omega⟩
  unfold AM.generateEmbedding
  simp [AM.genLoop, hb]

/-! ## Claim C1 -/

/-- C1 (counterexample): the claim says every successfully returned
embedding has exactly the configured dimension, with longer remote
results truncated and shorter ones zero-padded.  In the
`embeddings.service.ts` variant (D = 1536) a dedicated-tier vector is
returned exactly as received: a 1-entry remote vector yields a 1-entry
result, neither padded nor of length 1536. -/
theorem C1_counterexample :
    ES.generateEmbedding (fun q => q)
        (fun _ => ⟨.ok (some [5]), .ok none⟩) [] 3 = .ok (some [5]) ∧
    ¬ ([(5 : ℚ)].length = 1536) := by
  exact ⟨rfl, by decide⟩

/-- C1 (amended): dimension coercion exists only in the `app.module.ts`
variant.  There, every successful `generateEmbedding` result has length
exactly 384 (remote results are truncated / zero-padded, the hash
fallback emits 384).  In the `embeddings.service.ts` variant, any run
that does not return the dedicated tier's vector yields exactly 1536
entries, but a dedicated-tier vector is passed through as-is, with no
truncation or padding. -/
theorem C1_amended :
    (∀ (sqrt : ℚ → ℚ) (envs : Nat → AM.Env) (text : JStr) (retries : Nat),
       1 ≤ retries →
       ∃ v, AM.generateEmbedding sqrt envs text retries = .ok (some v) ∧
            v.length = 384) ∧
    (∀ (sqrt : ℚ → ℚ) (env : ES.Env) (text : JStr),
       (∀ e, env.dedicated ≠ .ok (some e)) →
       ∃ v, ES.attemptBody sqrt env text = .ok v ∧ v.length = 1536) ∧
    (∀ (sqrt : ℚ → ℚ) (env : ES.Env) (text : JStr) (e : List ℚ),
       env.dedicated = .ok (some e) → ES.attemptBody sqrt env text = .ok e) := by
  refine ⟨?_, ?_, ?_⟩
  · intro sqrt envs text retries hr
    obtain ⟨v, hv, hlen⟩ := AM.attemptBody_ok_length sqrt (envs 1) text
    exact ⟨v, AM.generateEmbedding_first384 sqrt envs text retries v hr hv, hlen⟩
  · intro sqrt env text hmiss
    exact ES.attemptBody_miss_length sqrt env text hmiss
  · intro sqrt env text e he
    unfold ES.attemptBody
    rw [he]

/-- C1 (witness): the amended statement applied at concrete inputs —
an `app.module.ts` run padding a 2-entry remote vector, an
`embeddings.service.ts` run with the dedicated tier down, and a
dedicated-tier pass-through. -/
theorem C1_witness :
    (∃ v, AM.generateEmbedding (fun q => q) (fun _ => ⟨.ok (some [1, 2])⟩) [] 3
            = .ok (some v) ∧ v.length = 384) ∧
    (∃ v, ES.attemptBody (fun q => q) ⟨.throw "down", .ok none⟩ [] = .ok v ∧
          v.length = 1536) ∧
    ES.attemptBody (fun q => q) ⟨.ok (some [7]), .ok none⟩ [] = .ok [7] := by
  refine ⟨?_, ?_, ?_⟩
  · exact C1_amended.1 (fun q => q) (fun _ => ⟨.ok (some [1, 2])⟩) [] 3 (by decide)
  · exact C1_amended.2.1 (fun q => q) ⟨.throw "down", .ok none⟩ []
      (fun e h => Remote.noConfusion h)
  · exact C1_amended.2.2 (fun q => q) ⟨.ok (some [7]), .ok none⟩ [] [7] rfl

/-! ## Claim C9 -/

/-- C9: `EmbeddingsService.generateEmbedding` never throws and never
retries: both remote tiers sit in inner `try`/`catch` blocks whose
handlers fall through, and the final hash fallback is a total pure
function, so for every pattern of remote outcomes the first loop
attempt already returns a vector — the outer retry/backoff branch and
the `Failed to generate embedding` rethrow are unreachable. -/
theorem C9_no_throw_first_attempt (sqrt : ℚ → ℚ) (envs : Nat → ES.Env)
    (text : JStr) (retries : Nat) (h : 1 ≤ retries) :
    ∃ v, ES.generateEmbedding sqrt envs text retries = .ok (some v) ∧
         ES.attemptBody sqrt (envs 1) text = .ok v := by
  obtain ⟨v, hv⟩ := ES.attemptBody_ok sqrt (envs 1) text
  exact ⟨v, ES.generateEmbedding_first1536 sqrt envs text retries v h hv, hv⟩

/-- C9 (witness): both remote tiers throwing on every attempt still
yields a first-attempt success. -/
theorem C9_witness :
    ∃ v, ES.generateEmbedding (fun q => q)
           (fun _ => ⟨.throw "down", .throw "down"⟩) (str ("hi")) 3
           = .ok (some v) ∧
         ES.attemptBody (fun q => q) ⟨.throw "down", .throw "down"⟩ (str ("hi"))
           = .ok v :=
  C9_no_throw_first_attempt (fun q => q)
    (fun _ => ⟨.throw "down", .throw "down"⟩) (str ("hi")) 3 (by decide)

/-! ## Claim C5 -/

/-- C5: both `calculateConfidence` variants return 0 on a missing or
empty hit list; on a non-empty list the `ai-query.service.ts` variant
returns the mean of the per-hit scores (`score || 0`) times 100 clamped
into `[0, 100]`, and the `part_001` variant returns the mean of
`score || distance || 0` clamped into `[0, 1]`. -/
theorem C5_confidence_mean_clamped (hits : List SearchHit) :
    calculateConfidencePct none = 0 ∧ calculateConfidenceUnit none = 0 ∧
    calculateConfidencePct (some hits) =
      (if hits = [] then 0 else
        min (max ((hits.map (fun r => jsOrN r.score 0)).sum / (hits.length : ℚ) * 100) 0) 100) ∧
    calculateConfidenceUnit (some hits) =
      (if hits = [] then 0 else
        min 1 (max 0
          ((hits.map (fun r => jsOrN r.score (jsOrN r.distance 0))).sum / (hits.length : ℚ)))) := by
  refine ⟨rfl, rfl, ?_, ?_⟩
  · by_cases h : hits = []
    · subst h; rfl
    · have hlen : hits.length ≠ 0 := by simpa [List.length_eq_zero] using h
      simp only [calculateConfidencePct, if_neg h, if_neg hlen,
        List.sum_eq_foldl, List.length_map]
  · by_cases h : hits = []
    · subst h; rfl
    · have hlen : hits.length ≠ 0 := by simpa [List.length_eq_zero] using h
      simp only [calculateConfidenceUnit, if_neg h, if_neg hlen,
        List.sum_eq_foldl, List.foldl_map]

/-! ## Helper lemmas: association-list map -/

theorem mapGet_eq_none_of_not_mem {α : Type} (l : List (JStr × α)) (k : JStr)
    (h : k ∉ l.map Prod.fst) : mapGet l k = none := by
  induction l with
  | nil => rfl
  | cons e rest ih =>
    simp only [List.map_cons, List.mem_cons] at h
    push_neg at h
    have hne : ¬ (e.1 = k) := fun he => h.1 he.symm
    simp only [mapGet, if_neg hne]
    exact ih h.2

theorem mapGet_mapDelete_self {α : Type} (l : List (JStr × α)) (k : JStr)
    (hnd : (l.map Prod.fst).Nodup) : mapGet (mapDelete l k) k = none := by
  induction l with
  | nil => rfl
  | cons e rest ih =>
    simp only [List.map_cons, List.nodup_cons] at hnd
    by_cases he : e.1 = k
    · simp only [mapDelete, if_pos he]
      exact mapGet_eq_none_of_not_mem rest k (he ▸ hnd.1)
    · simp only [mapDelete, if_neg he, mapGet, if_neg he]
      exact ih hnd.2

theorem mapGet_mapDelete_ne {α : Type} (l : List (JStr × α)) (k k' : JStr)
    (h : k' ≠ k) : mapGet (mapDelete l k) k' = mapGet l k' := by
  induction l with
  | nil => rfl
  | cons e rest ih =>
    by_cases he : e.1 = k
    · have hne : ¬ (e.1 = k') := by
        rw [he]; exact fun hx => h hx.symm
      simp only [mapDelete, if_pos he, mapGet, if_neg hne]
    · simp only [mapDelete, if_neg he, mapGet]
      by_cases he' : e.1 = k'
      · simp [he']
      · simp only [if_neg he']
        exact ih

theorem mapDelete_length {α : Type} (l : List (JStr × α)) (k : JStr) (d : α)
    (h : mapGet l k = some d) : (mapDelete l k).length + 1 = l.length := by
  induction l with
  | nil => simp [mapGet] at h
  | cons e rest ih =>
    by_cases he : e.1 = k
    · simp [mapDelete, if_pos he]
    · simp only [mapGet, if_neg he] at h
      simp only [mapDelete, if_neg he, List.length_cons]
      rw [← ih h]

/-! ## Claim C10 -/

/-- C10: `PdfService.deleteDocument` touches only the in-memory
document-metadata map.  An absent id returns `false` with the state
unchanged; a present id returns `true`, removes exactly that one map
entry (the id no longer resolves, every other id resolves as before,
the map shrinks by one), and the Milvus store — hence every stored
chunk — is untouched. -/
theorem C10_deleteDocument_frame (st : PdfState) (id : JStr) :
    (mapGet st.documents id = none → Pdf.deleteDocument st id = (false, st)) ∧
    (∀ d : PdfDoc, (st.documents.map Prod.fst).Nodup →
      mapGet st.documents id = some d →
      (Pdf.deleteDocument st id).1 = true ∧
      (Pdf.deleteDocument st id).2.milvus = st.milvus ∧
      mapGet (Pdf.deleteDocument st id).2.documents id = none ∧
      (∀ k, k ≠ id →
        mapGet (Pdf.deleteDocument st id).2.documents k = mapGet st.documents k) ∧
      (Pdf.deleteDocument st id).2.documents.length + 1 = st.documents.length) := by
  constructor
  · intro h
    simp [Pdf.deleteDocument, h]
  · intro d hnd h
    have hd : Pdf.deleteDocument st id
        = (true, { st with documents := mapDelete st.documents id }) := by
      unfold Pdf.deleteDocument
      rw [h]
    rw [hd]
    exact ⟨rfl, rfl, mapGet_mapDelete_self st.documents id hnd,
      fun k hk => mapGet_mapDelete_ne st.documents id k hk,
      mapDelete_length st.documents id d h⟩

/-- C10 (witness): deleting the present id `"a"` from a two-document
state removes exactly that entry and leaves the Milvus chunks alone. -/
theorem C10_witness :
    (Pdf.deleteDocument
        ⟨[(str ("a"), ⟨str ("a"), str ("f.pdf"), 0, str ("t"), 1⟩),
          (str ("b"), ⟨str ("b"), str ("g.pdf"), 0, str ("u"), 1⟩)],
         [⟨str ("a_chunk_0"), str ("t"), []⟩]⟩ (str ("a"))).1 = true ∧
    (Pdf.deleteDocument
        ⟨[(str ("a"), ⟨str ("a"), str ("f.pdf"), 0, str ("t"), 1⟩),
          (str ("b"), ⟨str ("b"), str ("g.pdf"), 0, str ("u"), 1⟩)],
         [⟨str ("a_chunk_0"), str ("t"), []⟩]⟩ (str ("a"))).2.milvus
      = [⟨str ("a_chunk_0"), str ("t"), []⟩] := by
  have h := (C10_deleteDocument_frame
    ⟨[(str ("a"), ⟨str ("a"), str ("f.pdf"), 0, str ("t"), 1⟩),
      (str ("b"), ⟨str ("b"), str ("g.pdf"), 0, str ("u"), 1⟩)],
     [⟨str ("a_chunk_0"), str ("t"), []⟩]⟩ (str ("a"))).2
    ⟨str ("a"), str ("f.pdf"), 0, str ("t"), 1⟩ (by decide) (by decide)
  exact ⟨h.1, h.2.1⟩

/-! ## Claim C3 -/

/-- C3 (counterexample): the claimed bound
`maxChunkChars + overlapChars + 1` fails because the size check
`currentChunk.length + trimmedSentence.length <= chunkSize` ignores the
two characters of the `". "` joiner: `chunkText("ab. cd.", 4, 0)`
produces the single chunk `"ab. cd."` of length 7 > 4 + 0 + 1. -/
theorem C3_counterexample :
    TCS.chunkText (str ("ab. cd.")) 4 0 = [str ("ab. cd.")] ∧
    ¬ ((str ("ab. cd.")).length ≤ 4 + 0 + 1) := by
  exact ⟨by decide, by decide⟩

theorem TCS.chunkStep_inv (chunkSize overlap : Nat) (chunks : List JStr)
    (cc s : JStr) (hs : (jsTrim s).length ≤ chunkSize)
    (hchunks : ∀ c ∈ chunks, c ≠ [] ∧ c.length ≤ chunkSize + overlap + 3)
    (hcc : cc.length ≤ chunkSize + overlap + 2) :
    (∀ c ∈ (TCS.chunkStep chunkSize overlap (chunks, cc) s).1,
       c ≠ [] ∧ c.length ≤ chunkSize + overlap + 3) ∧
    (TCS.chunkStep chunkSize overlap (chunks, cc) s).2.length
      ≤ chunkSize + overlap + 2 := by
  unfold TCS.chunkStep
  dsimp only
  by_cases hguard : cc.length + (jsTrim s).length ≤ chunkSize
  · rw [if_pos hguard]
    refine ⟨hchunks, ?_⟩
    by_cases hcce : cc = []
    · simp [hcce]
      omega
    · simp [hcce, str]
      omega
  · rw [if_neg hguard]
    have hchunks2 : ∀ c ∈ (if cc = [] then chunks else chunks ++ [cc ++ ['.']]),
        c ≠ [] ∧ c.length ≤ chunkSize + overlap + 3 := by
      by_cases hcce : cc = []
      · simpa [hcce] using hchunks
      · intro c hc
        rw [if_neg hcce, List.mem_append] at hc
        rcases hc with hc | hc
        · exact hchunks c hc
        · simp only [List.mem_singleton] at hc
          subst hc
          constructor
          · simp
          · simp
            omega
    by_cases hov : 0 < overlap ∧ (if cc = [] then chunks else chunks ++ [cc ++ ['.']]) ≠ []
    · rw [if_pos hov]
      refine ⟨hchunks2, ?_⟩
      have hdrop : ∀ l : JStr, (l.drop (l.length - overlap)).length ≤ overlap := by
        intro l
        rw [List.length_drop]
        omega
      have h1 := hdrop ((if cc = [] then chunks else chunks ++ [cc ++ ['.']]).getLastD [])
      dsimp only
      simp only [List.length_append, List.length_cons, List.length_nil]
      omega
    · rw [if_neg hov]
      refine ⟨hchunks2, ?_⟩
      dsimp only
      omega

theorem TCS.chunkFold_inv (chunkSize overlap : Nat) :
    ∀ (ss : List JStr) (chunks : List JStr) (cc : JStr),
    (∀ s ∈ ss, (jsTrim s).length ≤ chunkSize) →
    (∀ c ∈ chunks, c ≠ [] ∧ c.length ≤ chunkSize + overlap + 3) →
    cc.length ≤ chunkSize + overlap + 2 →
    (∀ c ∈ (ss.foldl (TCS.chunkStep chunkSize overlap) (chunks, cc)).1,
       c ≠ [] ∧ c.length ≤ chunkSize + overlap + 3) ∧
    (ss.foldl (TCS.chunkStep chunkSize overlap) (chunks, cc)).2.length
      ≤ chunkSize + overlap + 2 := by
  intro ss
  induction ss with
  | nil => exact fun chunks cc _ h1 h2 => ⟨h1, h2⟩
  | cons s rest ih =>
    intro chunks cc hss h1 h2
    have hstep := TCS.chunkStep_inv chunkSize overlap chunks cc s
      (hss s (List.mem_cons_self s rest)) h1 h2
    simp only [List.foldl_cons]
    have := ih (TCS.chunkStep chunkSize overlap (chunks, cc) s).1
      (TCS.chunkStep chunkSize overlap (chunks, cc) s).2
      (fun x hx => hss x (List.mem_cons_of_mem s hx)) hstep.1 hstep.2
    simpa using this

theorem dropWhile_length_le (p : Char → Bool) :
    ∀ l : JStr, (l.dropWhile p).length ≤ l.length := by
  intro l
  induction l with
  | nil => simp
  | cons c rest ih =>
    rw [List.dropWhile_cons]
    split
    · simp only [List.length_cons]
      omega
    · simp

theorem jsTrim_length_le (l : JStr) : (jsTrim l).length ≤ l.length := by
  unfold jsTrim
  rw [List.length_reverse]
  calc ((l.dropWhile isJsWs).reverse.dropWhile isJsWs).length
      ≤ (l.dropWhile isJsWs).reverse.length :=
        dropWhile_length_le isJsWs (l.dropWhile isJsWs).reverse
  _ = (l.dropWhile isJsWs).length := List.length_reverse _
  _ ≤ l.length := dropWhile_length_le isJsWs l

theorem dropWhile_nil_all (p : Char → Bool) :
    ∀ l : JStr, l.dropWhile p = [] → ∀ c ∈ l, p c = true := by
  intro l
  induction l with
  | nil => intro _ c hc; simp at hc
  | cons a rest ih =>
    intro h c hc
    by_cases ha : p a = true
    · rw [List.dropWhile_cons, if_pos ha] at h
      rcases List.mem_cons.mp hc with rfl | hc2
      · exact ha
      · exact ih h c hc2
    · rw [List.dropWhile_cons, if_neg ha] at h
      exact absurd h (by simp)

theorem takeWhile_all (p : Char → Bool) :
    ∀ l : JStr, ∀ c ∈ l.takeWhile p, p c = true := by
  intro l
  induction l with
  | nil => intro c hc; simp at hc
  | cons a rest ih =>
    intro c hc
    rw [List.takeWhile_cons] at hc
    split at hc
    · rcases List.mem_cons.mp hc with rfl | hc2
      · assumption
      · exact ih c hc2
    · simp at hc

theorem dropWhile_headD_not (p : Char → Bool) :
    ∀ l : JStr, l.dropWhile p ≠ [] → p ((l.dropWhile p).headD ' ') = false := by
  intro l
  induction l with
  | nil => intro h; exact absurd rfl h
  | cons c rest ih =>
    intro h
    by_cases hc : p c = true
    · rw [List.dropWhile_cons, if_pos hc] at h ⊢
      exact ih h
    · have hc2 : p c = false := by simpa using hc
      simp [List.dropWhile_cons, hc2]

theorem jsTrim_ne_nil_of_hasNonWs (l : JStr) (h : hasNonWs l) :
    jsTrim l ≠ [] := by
  intro hcontra
  unfold jsTrim at hcontra
  rw [List.reverse_eq_nil_iff] at hcontra
  have hall := dropWhile_nil_all isJsWs (l.dropWhile isJsWs).reverse hcontra
  obtain ⟨c, hc, hcw⟩ := h
  have hsplit : c ∈ l.takeWhile isJsWs ++ l.dropWhile isJsWs := by
    rw [List.takeWhile_append_dropWhile]
    exact hc
  rw [List.mem_append] at hsplit
  rcases hsplit with h2 | h2
  · rw [takeWhile_all isJsWs l c h2] at hcw
    exact Bool.noConfusion hcw
  · rw [hall c (List.mem_reverse.mpr h2)] at hcw
    exact Bool.noConfusion hcw

theorem hasNonWs_of_jsTrim_ne_nil (l : JStr) (h : jsTrim l ≠ []) :
    hasNonWs (jsTrim l) := by
  unfold jsTrim at h ⊢
  match hu : (l.dropWhile isJsWs).reverse.dropWhile isJsWs with
  | [] => rw [hu] at h; exact absurd rfl h
  | c :: u2 =>
    have hc : isJsWs c = false := by
      have hhd := dropWhile_headD_not isJsWs (l.dropWhile isJsWs).reverse
        (by rw [hu]; simp)
      rw [hu] at hhd
      simpa using hhd
    refine ⟨c, ?_, hc⟩
    rw [List.mem_reverse]
    exact List.mem_cons_self c u2

theorem sentencePieces_pos (text : JStr) :
    ∀ s ∈ sentencePieces text, 0 < (jsTrim s).length := by
  intro s hs
  unfold sentencePieces at hs
  have := List.of_mem_filter hs
  simpa using this

theorem TCS.chunkFold_nonempty (chunkSize overlap : Nat) :
    ∀ (ss : List JStr) (chunks : List JStr) (cc : JStr),
    (∀ c ∈ chunks, c ≠ []) →
    ∀ c ∈ (ss.foldl (TCS.chunkStep chunkSize overlap) (chunks, cc)).1, c ≠ [] := by
  intro ss
  induction ss with
  | nil => intro chunks cc h; exact h
  | cons s rest ih =>
    intro chunks cc h
    rw [List.foldl_cons]
    have hstep : ∀ c ∈ (TCS.chunkStep chunkSize overlap (chunks, cc) s).1, c ≠ [] := by
      unfold TCS.chunkStep
      dsimp only
      split
      · exact h
      · by_cases hcc : cc = []
        · simp only [if_pos hcc]
          split
          · exact h
          · exact h
        · simp only [if_neg hcc]
          have h2 : ∀ c ∈ chunks ++ [cc ++ ['.']], c ≠ [] := by
            intro c hc
            rw [List.mem_append] at hc
            rcases hc with hc | hc
            · exact h c hc
            · simp only [List.mem_singleton] at hc
              subst hc
              simp
          split
          · exact h2
          · exact h2
    exact ih (TCS.chunkStep chunkSize overlap (chunks, cc) s).1
      (TCS.chunkStep chunkSize overlap (chunks, cc) s).2 hstep

theorem Pdf.chunkStep_textNe (chunkSize : Nat) (docId : JStr)
    (chunks : List ChunkData) (cc : JStr) (idx : Nat) (s : JStr)
    (hs : 0 < (jsTrim s).length)
    (h1 : ∀ c ∈ chunks, c.text ≠ []) (h2 : cc = [] ∨ hasNonWs cc) :
    (∀ c ∈ (Pdf.chunkStep chunkSize docId (chunks, cc, idx) s).1, c.text ≠ []) ∧
    ((Pdf.chunkStep chunkSize docId (chunks, cc, idx) s).2.1 = [] ∨
      hasNonWs (Pdf.chunkStep chunkSize docId (chunks, cc, idx) s).2.1) := by
  have ht : hasNonWs (jsTrim s) := by
    apply hasNonWs_of_jsTrim_ne_nil
    intro h0
    rw [h0] at hs
    simp at hs
  unfold Pdf.chunkStep
  dsimp only
  split
  · rename_i hguard
    constructor
    · intro c hc
      rw [List.mem_append] at hc
      rcases hc with hc | hc
      · exact h1 c hc
      · simp only [List.mem_singleton] at hc
        subst hc
        dsimp only
        apply jsTrim_ne_nil_of_hasNonWs
        rcases h2 with h2 | h2
        · rw [h2] at hguard
          simp at hguard
        · exact h2
    · right
      exact ht
  · refine ⟨h1, Or.inr ?_⟩
    obtain ⟨c, hc, hcw⟩ := ht
    refine ⟨c, ?_, hcw⟩
    rw [List.mem_append]
    right
    exact hc

theorem Pdf.chunkFold_textNe (chunkSize : Nat) (docId : JStr) :
    ∀ (ss : List JStr) (chunks : List ChunkData) (cc : JStr) (idx : Nat),
    (∀ s ∈ ss, 0 < (jsTrim s).length) →
    (∀ c ∈ chunks, c.text ≠ []) →
    (cc = [] ∨ hasNonWs cc) →
    (∀ c ∈ (ss.foldl (Pdf.chunkStep chunkSize docId) (chunks, cc, idx)).1,
       c.text ≠ []) ∧
    ((ss.foldl (Pdf.chunkStep chunkSize docId) (chunks, cc, idx)).2.1 = [] ∨
      hasNonWs (ss.foldl (Pdf.chunkStep chunkSize docId) (chunks, cc, idx)).2.1) := by
  intro ss
  induction ss with
  | nil => intro chunks cc idx _ h1 h2; exact ⟨h1, h2⟩
  | cons s rest ih =>
    intro chunks cc idx hss h1 h2
    rw [List.foldl_cons]
    have hstep := Pdf.chunkStep_textNe chunkSize docId chunks cc idx s
      (hss s (List.mem_cons_self s rest)) h1 h2
    have := ih (Pdf.chunkStep chunkSize docId (chunks, cc, idx) s).1
      (Pdf.chunkStep chunkSize docId (chunks, cc, idx) s).2.1
      (Pdf.chunkStep chunkSize docId (chunks, cc, idx) s).2.2
      (fun x hx => hss x (List.mem_cons_of_mem s hx)) hstep.1 hstep.2
    simpa using this

theorem Pdf.chunkStep_progress (chunkSize : Nat) (docId : JStr)
    (st : List ChunkData × JStr × Nat) (s : JStr) (hs : 0 < (jsTrim s).length) :
    (Pdf.chunkStep chunkSize docId st s).1 ≠ [] ∨
      hasNonWs (Pdf.chunkStep chunkSize docId st s).2.1 := by
  have ht : hasNonWs (jsTrim s) := by
    apply hasNonWs_of_jsTrim_ne_nil
    intro h0
    rw [h0] at hs
    simp at hs
  unfold Pdf.chunkStep
  dsimp only
  split
  · left
    simp
  · right
    obtain ⟨c, hc, hcw⟩ := ht
    refine ⟨c, ?_, hcw⟩
    rw [List.mem_append]
    right
    exact hc

theorem Pdf.chunkFold_progress (chunkSize : Nat) (docId : JStr) :
    ∀ (ss : List JStr) (st : List ChunkData × JStr × Nat),
    ss ≠ [] → (∀ s ∈ ss, 0 < (jsTrim s).length) →
    (ss.foldl (Pdf.chunkStep chunkSize docId) st).1 ≠ [] ∨
      hasNonWs (ss.foldl (Pdf.chunkStep chunkSize docId) st).2.1 := by
  intro ss
  induction ss with
  | nil => intro st h; exact absurd rfl h
  | cons s rest ih =>
    intro st _ hss
    rw [List.foldl_cons]
    match rest, ih with
    | [], _ =>
      simp only [List.foldl_nil]
      exact Pdf.chunkStep_progress chunkSize docId st s
        (hss s (List.mem_cons_self s []))
    | t :: rest2, ih =>
      exact ih (Pdf.chunkStep chunkSize docId st s) (by simp)
        (fun x hx => hss x (List.mem_cons_of_mem s hx))

theorem Pdf.chunkFold_bound (chunkSize : Nat) (docId : JStr) :
    ∀ (ss : List JStr) (chunks : List ChunkData) (cc : JStr) (idx : Nat),
    (∀ s ∈ ss, (jsTrim s).length ≤ chunkSize) →
    (∀ c ∈ chunks, c.text.length ≤ chunkSize + 2) →
    cc.length ≤ chunkSize + 2 →
    (∀ c ∈ (ss.foldl (Pdf.chunkStep chunkSize docId) (chunks, cc, idx)).1,
       c.text.length ≤ chunkSize + 2) ∧
    (ss.foldl (Pdf.chunkStep chunkSize docId) (chunks, cc, idx)).2.1.length
      ≤ chunkSize + 2 := by
  intro ss
  induction ss with
  | nil => intro chunks cc idx _ h1 h2; exact ⟨h1, h2⟩
  | cons s rest ih =>
    intro chunks cc idx hss h1 h2
    rw [List.foldl_cons]
    have hslen := hss s (List.mem_cons_self s rest)
    have hstep : (∀ c ∈ (Pdf.chunkStep chunkSize docId (chunks, cc, idx) s).1,
        c.text.length ≤ chunkSize + 2) ∧
        (Pdf.chunkStep chunkSize docId (chunks, cc, idx) s).2.1.length
          ≤ chunkSize + 2 := by
      unfold Pdf.chunkStep
      dsimp only
      split
      · constructor
        · intro c hc
          rw [List.mem_append] at hc
          rcases hc with hc | hc
          · exact h1 c hc
          · simp only [List.mem_singleton] at hc
            subst hc
            dsimp only
            have := jsTrim_length_le cc
            omega
        · dsimp only
          omega
      · rename_i hguard
        refine ⟨h1, ?_⟩
        by_cases hcc : 0 < cc.length
        · have hle : cc.length + (jsTrim s).length ≤ chunkSize := by
            rcases Decidable.not_and_iff_or_not.mp hguard with h | h
            · omega
            · exact absurd hcc h
          rw [if_pos hcc]
          simp only [List.length_append, str, String.data]
          simp only [List.length_cons, List.length_nil]
          omega
        · rw [if_neg hcc]
          have hcc0 : cc.length = 0 := by omega
          simp only [List.length_append, hcc0, List.length_nil]
          omega
    have := ih (Pdf.chunkStep chunkSize docId (chunks, cc, idx) s).1
      (Pdf.chunkStep chunkSize docId (chunks, cc, idx) s).2.1
      (Pdf.chunkStep chunkSize docId (chunks, cc, idx) s).2.2
      (fun x hx => hss x (List.mem_cons_of_mem s hx)) hstep.1 hstep.2
    simpa using this

/-- C3 (amended): every chunk `TextContextService.chunkText` produces is
non-empty, unconditionally — each chunk is a buffer with `'.'` appended;
and provided every trimmed sentence fits the budget on its own
(`length ≤ maxChunkChars`) every chunk has length at most
`maxChunkChars + overlapChars + 3` (the joiner check ignores the two
`". "` characters and the closing `'.'` adds one; without the proviso no
additive bound exists, an over-long sentence is emitted whole).  For
`PdfService.chunkText`: whenever the input has at least one sentence,
every produced chunk has non-empty text, and under the same per-sentence
proviso every chunk text has length at most `chunkSize + 2`; on
sentence-free input it instead emits exactly one chunk holding the whole
trimmed text — which is empty when the input is whitespace-only, so the
original unconditional non-emptiness fails on that path as well. -/
theorem C3_amended :
    (∀ (text : JStr) (chunkSize overlap : Nat),
       ∀ c ∈ TCS.chunkText text chunkSize overlap, c ≠ []) ∧
    (∀ (text : JStr) (chunkSize overlap : Nat),
       (∀ s ∈ sentencePieces text, (jsTrim s).length ≤ chunkSize) →
       ∀ c ∈ TCS.chunkText text chunkSize overlap,
         c.length ≤ chunkSize + overlap + 3) ∧
    (∀ (text docId filename : JStr) (chunkSize : Nat),
       sentencePieces text ≠ [] →
       ∀ c ∈ Pdf.chunkText text docId filename chunkSize, c.text ≠ []) ∧
    (∀ (text docId filename : JStr) (chunkSize : Nat),
       sentencePieces text ≠ [] →
       (∀ s ∈ sentencePieces text, (jsTrim s).length ≤ chunkSize) →
       ∀ c ∈ Pdf.chunkText text docId filename chunkSize,
         c.text.length ≤ chunkSize + 2) ∧
    (∀ (text docId filename : JStr) (chunkSize : Nat),
       sentencePieces text = [] →
       Pdf.chunkText text docId filename chunkSize
         = [⟨Pdf.chunkId docId 0, jsTrim text, []⟩]) := by
  refine ⟨?_, ?_, ?_, ?_, ?_⟩
  · intro text chunkSize overlap c hc
    unfold TCS.chunkText at hc
    have hfold := TCS.chunkFold_nonempty chunkSize overlap (sentencePieces text)
      [] [] (by simp)
    set r := (sentencePieces text).foldl (TCS.chunkStep chunkSize overlap) ([], [])
    by_cases hr : r.2 = []
    · rw [if_pos hr] at hc
      exact hfold c hc
    · rw [if_neg hr, List.mem_append] at hc
      rcases hc with hc | hc
      · exact hfold c hc
      · simp only [List.mem_singleton] at hc
        subst hc
        simp
  · intro text chunkSize overlap hs c hc
    unfold TCS.chunkText at hc
    have hfold := TCS.chunkFold_inv chunkSize overlap (sentencePieces text) [] []
      hs (by simp) (by simp)
    set r := (sentencePieces text).foldl (TCS.chunkStep chunkSize overlap) ([], [])
    by_cases hr : r.2 = []
    · rw [if_pos hr] at hc
      exact (hfold.1 c hc).2
    · rw [if_neg hr, List.mem_append] at hc
      rcases hc with hc | hc
      · exact (hfold.1 c hc).2
      · simp only [List.mem_singleton] at hc
        subst hc
        have := hfold.2
        simp only [List.length_append, List.length_cons, List.length_nil]
        omega
  · intro text docId filename chunkSize hne c hc
    unfold Pdf.chunkText at hc
    dsimp only at hc
    have hpos := sentencePieces_pos text
    have hinv := Pdf.chunkFold_textNe chunkSize docId (sentencePieces text)
      [] [] 0 hpos (by simp) (Or.inl rfl)
    have hprog := Pdf.chunkFold_progress chunkSize docId (sentencePieces text)
      ([], [], 0) hne hpos
    set r := (sentencePieces text).foldl (Pdf.chunkStep chunkSize docId) ([], [], 0)
    by_cases hflush : 0 < (jsTrim r.2.1).length
    · rw [if_pos hflush] at hc
      have hne2 : r.1 ++ [(⟨Pdf.chunkId docId r.2.2, jsTrim r.2.1, []⟩ : ChunkData)]
          ≠ [] := by simp
      rw [if_neg hne2] at hc
      rw [List.mem_append] at hc
      rcases hc with hc | hc
      · exact hinv.1 c hc
      · simp only [List.mem_singleton] at hc
        subst hc
        dsimp only
        intro h0
        rw [h0] at hflush
        simp at hflush
    · rw [if_neg hflush] at hc
      have hr1 : r.1 ≠ [] := by
        rcases hprog with h | h
        · exact h
        · exfalso
          apply jsTrim_ne_nil_of_hasNonWs r.2.1 h
          have : (jsTrim r.2.1).length = 0 := by omega
          exact List.length_eq_zero.mp this
      rw [if_neg hr1] at hc
      exact hinv.1 c hc
  · intro text docId filename chunkSize hne hs c hc
    unfold Pdf.chunkText at hc
    dsimp only at hc
    have hpos := sentencePieces_pos text
    have hbound := Pdf.chunkFold_bound chunkSize docId (sentencePieces text)
      [] [] 0 hs (by simp) (by simp)
    have hprog := Pdf.chunkFold_progress chunkSize docId (sentencePieces text)
      ([], [], 0) hne hpos
    set r := (sentencePieces text).foldl (Pdf.chunkStep chunkSize docId) ([], [], 0)
    by_cases hflush : 0 < (jsTrim r.2.1).length
    · rw [if_pos hflush] at hc
      have hne2 : r.1 ++ [(⟨Pdf.chunkId docId r.2.2, jsTrim r.2.1, []⟩ : ChunkData)]
          ≠ [] := by simp
      rw [if_neg hne2] at hc
      rw [List.mem_append] at hc
      rcases hc with hc | hc
      · exact hbound.1 c hc
      · simp only [List.mem_singleton] at hc
        subst hc
        dsimp only
        have := jsTrim_length_le r.2.1
        have := hbound.2
        omega
    · rw [if_neg hflush] at hc
      have hr1 : r.1 ≠ [] := by
        rcases hprog with h | h
        · exact h
        · exfalso
          apply jsTrim_ne_nil_of_hasNonWs r.2.1 h
          have : (jsTrim r.2.1).length = 0 := by omega
          exact List.length_eq_zero.mp this
      rw [if_neg hr1] at hc
      exact hbound.1 c hc
  · intro text docId filename chunkSize h0
    unfold Pdf.chunkText
    rw [h0]
    rfl

/-- C3 (witness): the amended statement at concrete inputs — the
unconditional non-emptiness and the `+ 3` bound on
`chunkText("ab. cd.", 4, 0)`; the PDF chunk of `"hi."` has non-empty
text within the `+ 2` bound; and the whitespace-only input `" "` yields
the single whole-text PDF chunk whose text is empty. -/
theorem C3_witness :
    str ("ab. cd.") ≠ [] ∧
    (str ("ab. cd.")).length ≤ 4 + 0 + 3 ∧
    str ("hi") ≠ [] ∧
    (str ("hi")).length ≤ 500 + 2 ∧
    Pdf.chunkText (str (" ")) (str ("D")) (str ("f")) 500
      = [⟨Pdf.chunkId (str ("D")) 0, [], []⟩] := by
  refine ⟨?_, ?_, ?_, ?_, ?_⟩
  · exact C3_amended.1 (str ("ab. cd.")) 4 0 (str ("ab. cd.")) (by decide)
  · exact C3_amended.2.1 (str ("ab. cd.")) 4 0 (by decide)
      (str ("ab. cd.")) (by decide)
  · exact C3_amended.2.2.1 (str ("hi.")) (str ("D")) (str ("f")) 500 (by decide)
      ⟨Pdf.chunkId (str ("D")) 0, str ("hi"), []⟩ (by decide)
  · exact C3_amended.2.2.2.1 (str ("hi.")) (str ("D")) (str ("f")) 500 (by decide)
      (by decide) ⟨Pdf.chunkId (str ("D")) 0, str ("hi"), []⟩ (by decide)
  · exact C3_amended.2.2.2.2 (str (" ")) (str ("D")) (str ("f")) 500 (by decide)

/-! ## Claim C2 -/

/-- C2 (counterexample): the claim says `processQuery` /
`queryWithContext` reject an empty question before any work.  The
Gemini-variant `processQuery` has no validation at all: on the empty
question it embeds, searches and calls generation, and returns a normal
response. -/
theorem C2_counterexample :
    (PQ.processQuery (fun q => q)
        ⟨fun _ => ⟨.ok (some [1]), .ok none⟩, .ok [], .ok (str ("hi"))⟩ []).1
      = .ok ⟨str ("hi"), [], 0⟩ ∧
    (PQ.processQuery (fun q => q)
        ⟨fun _ => ⟨.ok (some [1]), .ok none⟩, .ok [], .ok (str ("hi"))⟩ []).2
      = [.embedCall, .searchCall, .genCall []] := by
  exact ⟨rfl, rfl⟩

/-- C2 (amended): the empty/whitespace-question validation lives in
`PdfController.queryDocuments`, not in the pipeline services: for every
whitespace-only question the controller rejects with
`Question is required` before invoking anything — the call log is empty,
so no embedding, search or generation happens.  `processQuery` and
`queryWithContext` themselves perform no such validation (see the
counterexample). -/
theorem C2_amended (sqrt : ℚ → ℚ) (env : PdfCtl.Env)
    (docs : List (JStr × PdfDoc)) (question : JStr) (pdfOnly : Bool)
    (h : jsTrim question = []) :
    PdfCtl.queryDocuments sqrt env docs question pdfOnly
      = (.error ("Question is required"), []) := by
  unfold PdfCtl.queryDocuments
  rw [if_pos (Or.inr (by rw [h]; rfl))]

/-- C2 (witness): the controller validation at the one-space question. -/
theorem C2_witness :
    PdfCtl.queryDocuments (fun q => q)
        ⟨⟨fun _ => ⟨.ok none, .ok none⟩, .ok [], .ok [], .ok none⟩, .ok none⟩
        [] (str (" ")) false
      = (.error ("Question is required"), []) :=
  C2_amended (fun q => q)
    ⟨⟨fun _ => ⟨.ok none, .ok none⟩, .ok [], .ok [], .ok none⟩, .ok none⟩
    [] (str (" ")) false (by decide)

/-! ## Helper lemmas: joinSep -/

theorem joinSep_acc_length (sep : JStr) (l : List JStr) :
    ∀ acc : JStr, acc.length ≤ (l.foldl (fun a x => a ++ sep ++ x) acc).length := by
  induction l with
  | nil => intro acc; simp
  | cons x rest ih =>
    intro acc
    calc acc.length ≤ (acc ++ sep ++ x).length := by simp
    _ ≤ _ := ih (acc ++ sep ++ x)

theorem joinSep_ne_nil (sep x : JStr) (xs : List JStr) (hx : x ≠ []) :
    joinSep sep (x :: xs) ≠ [] := by
  intro hcontra
  have h2 := joinSep_acc_length sep xs x
  rw [joinSep] at hcontra
  rw [hcontra] at h2
  simp only [List.length_nil, Nat.le_zero, List.length_eq_zero] at h2
  exact hx h2

/-! ## Claim C4 -/

/-- C4 (counterexample): the claim says that on zero hits the pipeline
falls back to a full scan and that the returned sources are non-empty
whenever a record exists.  The only variant that returns record-derived
`sources` — `processQuery` of `part_001` — performs no scan at all: on
zero hits it returns `sources = []` (whatever the collection holds) and
its call log shows no scan. -/
theorem C4_counterexample :
    (AQ3.processQuery (fun q => q)
        ⟨fun _ => ⟨.ok (some [1]), .ok none⟩, .ok [], .ok (some (str ("ok")))⟩
        (str ("q"))).1 = .ok ⟨str ("ok"), [], 0⟩ ∧
    Ev.scanCall ∉ (AQ3.processQuery (fun q => q)
        ⟨fun _ => ⟨.ok (some [1]), .ok none⟩, .ok [], .ok (some (str ("ok")))⟩
        (str ("q"))).2 := by
  exact ⟨rfl, by decide⟩

/-- C4 (amended): the scan fallback exists in `queryWithContext`
(`part_000`): when every hit text is empty (in particular on zero hits)
it invokes `getAllChunks` and hands the generation call the non-empty
texts of the scanned records, a non-empty context whenever at least one
scanned record has non-empty text.  That variant, however, returns only
an answer string; the variant returning `sources` has no fallback (see
the counterexample). -/
theorem C4_amended (sqrt : ℚ → ℚ) (env : AQ2.Env) (query : JStr)
    (hits : List SearchHit) (hsearch : env.search = .ok hits)
    (hempty : ∀ h ∈ hits, h.text = [])
    (hscan : ((getAllChunks env.scan).map (fun c => jsOrS c.text [])).filter
        (fun t => 0 < t.length) ≠ []) :
    (AQ2.queryWithContext sqrt env query).2
      = [.embedCall, .searchCall, .scanCall,
         .genCall (joinSep (str ("\n\n"))
           (((getAllChunks env.scan).map (fun c => jsOrS c.text [])).filter
             (fun t => 0 < t.length)))] ∧
    joinSep (str ("\n\n"))
      (((getAllChunks env.scan).map (fun c => jsOrS c.text [])).filter
        (fun t => 0 < t.length)) ≠ [] := by
  obtain ⟨v, hv⟩ := ES.attemptBody_ok sqrt (env.embed 1) query
  have hemb := ES.generateEmbedding_first1536 sqrt env.embed query 3 v (by decide) hv
  have hctx0 : (hits.map (fun c => jsOrS c.text [])).filter
      (fun t => 0 < t.length) = [] := by
    rw [List.filter_eq_nil_iff]
    intro a ha
    rw [List.mem_map] at ha
    obtain ⟨h0, hh0, rfl⟩ := ha
    rw [hempty h0 hh0]
    decide
  have hnonempty : joinSep (str ("\n\n"))
      (((getAllChunks env.scan).map (fun c => jsOrS c.text [])).filter
        (fun t => 0 < t.length)) ≠ [] := by
    rcases hfe : ((getAllChunks env.scan).map (fun c => jsOrS c.text [])).filter
        (fun t => 0 < t.length) with _ | ⟨x, xs⟩
    · exact absurd hfe hscan
    · have hxmem : x ∈ ((getAllChunks env.scan).map (fun c => jsOrS c.text [])).filter
          (fun t => 0 < t.length) := by rw [hfe]; exact List.mem_cons_self x xs
      have hx := List.of_mem_filter hxmem
      simp only [decide_eq_true_eq] at hx
      rw [hfe]
      exact joinSep_ne_nil (str ("\n\n")) x xs (by
        intro hx0
        rw [hx0] at hx
        simp at hx)
  refine ⟨?_, hnonempty⟩
  unfold AQ2.queryWithContext
  rw [hemb, hsearch]
  dsimp only
  rw [hctx0]
  have : (joinSep (str ("\n\n")) []).length = 0 := rfl
  rw [if_pos this]
  cases AQ2.generateResponseWithLlama env.llama with
  | error m => rfl
  | ok answer => rfl

/-- C4 (witness): a concrete zero-hit query over a store holding one
record with text `"x"`: the log shows the scan and a generation call
with context `"x"`. -/
theorem C4_witness :
    (AQ2.queryWithContext (fun q => q)
        ⟨fun _ => ⟨.ok (some [1]), .ok none⟩, .ok [],
         .ok [⟨str ("i"), str ("x")⟩], .ok (some (str ("a")))⟩ (str ("q"))).2
      = [.embedCall, .searchCall, .scanCall, .genCall (str ("x"))] := by
  have h := C4_amended (fun q => q)
    ⟨fun _ => ⟨.ok (some [1]), .ok none⟩, .ok [],
     .ok [⟨str ("i"), str ("x")⟩], .ok (some (str ("a")))⟩ (str ("q")) []
    rfl (by simp) (by decide)
  exact h.1

/-! ## Claim C6 -/

/-- C6 (counterexample): the claim says that on an empty corpus the
generation capability is not invoked and a canned message is returned.
In `part_001`, with zero hits the local model is still called (the log
records a generation call with the empty context), and when it succeeds
its own answer — not the canned message — is returned. -/
theorem C6_counterexample :
    AQ3.processQuery (fun q => q)
        ⟨fun _ => ⟨.ok (some [1]), .ok none⟩, .ok [], .ok (some (str ("Hello")))⟩
        (str ("q"))
      = (.ok ⟨str ("Hello"), [], 0⟩, [.embedCall, .searchCall, .genCall []]) ∧
    str ("Hello") ≠ AQ3.cannedNoContext := by
  exact ⟨rfl, by decide⟩

/-- C6 (amended): on zero search hits `processQuery` (`part_001`)
returns confidence exactly 0 and empty sources, and the generation
capability *is* invoked with the empty context; the canned
insufficient-information message is returned exactly when that call
fails to produce a truthy response, while a successful generation's own
(trimmed) answer is returned otherwise. -/
theorem C6_amended (sqrt : ℚ → ℚ) (env : AQ3.Env) (question : JStr)
    (hsearch : env.search = .ok []) :
    ∃ resp : AQ3.Resp,
      AQ3.processQuery sqrt env question
        = (.ok resp, [.embedCall, .searchCall, .genCall []]) ∧
      resp.confidence = 0 ∧ resp.sources = [] ∧
      ((∀ s, env.llama = .ok (some s) → s = []) →
        resp.answer = AQ3.cannedNoContext) ∧
      (∀ s, env.llama = .ok (some s) → s ≠ [] → resp.answer = jsTrim s) := by
  obtain ⟨v, hv⟩ := ES.attemptBody_ok sqrt (env.embed 1) question
  have hemb := ES.generateEmbedding_first1536 sqrt env.embed question 3 v (by decide) hv
  refine ⟨⟨AQ3.generateResponse env.llama question [], [], 0⟩, ?_, rfl, rfl, ?_, ?_⟩
  · unfold AQ3.processQuery
    rw [hemb, hsearch]
    rfl
  · intro hfail
    cases hllama : env.llama with
    | throw m => simp [AQ3.generateResponse, AQ3.generateFallbackResponse]
    | ok o =>
      cases o with
      | none => simp [AQ3.generateResponse, AQ3.generateFallbackResponse]
      | some s =>
        have hs : s = [] := hfail s hllama
        subst hs
        simp [AQ3.generateResponse, AQ3.generateFallbackResponse]
  · intro s hllama hs
    rw [hllama]
    simp [AQ3.generateResponse, hs]

/-- C6 (witness): with the local model down, a zero-hit query returns
confidence 0 and the canned no-context answer. -/
theorem C6_witness :
    ∃ resp : AQ3.Resp,
      AQ3.processQuery (fun q => q)
          ⟨fun _ => ⟨.ok (some [1]), .ok none⟩, .ok [], .throw "down"⟩
          (str ("q"))
        = (.ok resp, [.embedCall, .searchCall, .genCall []]) ∧
      resp.confidence = 0 ∧ resp.answer = AQ3.cannedNoContext := by
  obtain ⟨resp, h1, h2, _, h4, _⟩ := C6_amended (fun q => q)
    ⟨fun _ => ⟨.ok (some [1]), .ok none⟩, .ok [], .throw "down"⟩ (str ("q")) rfl
  exact ⟨resp, h1, h2, h4 (fun s hs => Remote.noConfusion hs)⟩

/-! ## Helper lemmas: decimal and hex renderings -/

theorem charDigit_toNat : ∀ d : Fin 10, (Char.ofNat (48 + d.val)).toNat = 48 + d.val := by
  decide

theorem decVal_natToDecAux : ∀ fuel n : Nat, n ≤ fuel →
    decVal (natToDecAux fuel n) = n := by
  intro fuel
  induction fuel with
  | zero =>
    intro n hn
    interval_cases n
    rfl
  | succ f ih =>
    intro n hn
    match n with
    | 0 => rfl
    | m + 1 =>
      show decVal (natToDecAux f ((m + 1) / 10) ++ [Char.ofNat (48 + (m + 1) % 10)])
        = m + 1
      have hdiv : (m + 1) / 10 ≤ f := by
        have hlt : (m + 1) / 10 < m + 1 :=
          Nat.div_lt_self (by omega) (by omega)
        omega
      have hrec := ih ((m + 1) / 10) hdiv
      have hch := charDigit_toNat ⟨(m + 1) % 10, Nat.mod_lt _ (by omega)⟩
      simp only at hch
      unfold decVal at hrec ⊢
      rw [List.foldl_append]
      simp only [List.foldl_cons, List.foldl_nil, hrec, hch]
      have := Nat.div_add_mod (m + 1) 10
      omega

theorem decVal_natToDec (n : Nat) : decVal (natToDec n) = n := by
  by_cases h : n = 0
  · subst h; rfl
  · unfold natToDec
    rw [if_neg h]
    exact decVal_natToDecAux n n le_rfl

theorem natToDec_injective : Function.Injective natToDec := by
  intro a b h
  have := decVal_natToDec a
  rw [h, decVal_natToDec b] at this
  exact this.symm

theorem hexDigitCh_injFin : ∀ a b : Fin 16,
    hexDigitCh a.val = hexDigitCh b.val → a = b := by
  decide

theorem hexDigitCh_inj (a b : Nat) (ha : a < 16) (hb : b < 16)
    (h : hexDigitCh a = hexDigitCh b) : a = b := by
  have := hexDigitCh_injFin ⟨a, ha⟩ ⟨b, hb⟩ h
  exact congrArg Fin.val this

theorem hexByte_inj (a b : Nat) (ha : a < 256) (hb : b < 256)
    (h : hexByte a = hexByte b) : a = b := by
  unfold hexByte at h
  injection h with hh1 ht
  injection ht with hh2 hnil
  have h1 := hexDigitCh_inj (a / 16) (b / 16) (by omega) (by omega) hh1
  have h2 := hexDigitCh_inj (a % 16) (b % 16)
    (Nat.mod_lt _ (by omega)) (Nat.mod_lt _ (by omega)) hh2
  have ha2 := Nat.div_add_mod a 16
  have hb2 := Nat.div_add_mod b 16
  omega

theorem hexEncode_length : ∀ bs : List Nat, (hexEncode bs).length = 2 * bs.length := by
  intro bs
  induction bs with
  | nil => rfl
  | cons b rest ih =>
    simp only [hexEncode, hexByte, List.length_append, List.length_cons,
      List.length_nil, ih, List.length_cons]
    omega

set_option maxRecDepth 4000 in
theorem hexByte_hexFin : ∀ b : Fin 256, ∀ c ∈ hexByte b.val, isHexCh c = true := by
  decide

theorem hexEncode_hex : ∀ bs : List Nat, (∀ b ∈ bs, b < 256) →
    ∀ c ∈ hexEncode bs, isHexCh c = true := by
  intro bs
  induction bs with
  | nil => intro _ c hc; simp [hexEncode] at hc
  | cons b rest ih =>
    intro hb c hc
    simp only [hexEncode, List.mem_append] at hc
    rcases hc with hc | hc
    · exact hexByte_hexFin ⟨b, hb b (List.mem_cons_self b rest)⟩ c hc
    · exact ih (fun x hx => hb x (List.mem_cons_of_mem b hx)) c hc

theorem hexEncode_inj : ∀ b₁ b₂ : List Nat, b₁.length = b₂.length →
    (∀ b ∈ b₁, b < 256) → (∀ b ∈ b₂, b < 256) →
    hexEncode b₁ = hexEncode b₂ → b₁ = b₂ := by
  intro b₁
  induction b₁ with
  | nil =>
    intro b₂ hlen _ _ _
    have hb2 : b₂ = [] := List.length_eq_zero.mp hlen.symm
    exact hb2.symm
  | cons x rest ih =>
    intro b₂ hlen hx hy h
    match b₂ with
    | [] => simp at hlen
    | y :: rest₂ =>
      simp only [hexEncode] at h
      have hinj := List.append_inj h (by simp [hexByte])
      have hxy := hexByte_inj x y (hx x (List.mem_cons_self x rest))
        (hy y (List.mem_cons_self y rest₂)) hinj.1
      have hrest := ih rest₂ (by simpa using hlen)
        (fun b hb => hx b (List.mem_cons_of_mem x hb))
        (fun b hb => hy b (List.mem_cons_of_mem y hb)) hinj.2
      rw [hxy, hrest]

theorem Pdf.chunkId_injective (docId : JStr) :
    Function.Injective (Pdf.chunkId docId) := by
  intro a b h
  unfold Pdf.chunkId at h
  simp only [List.append_assoc] at h
  exact natToDec_injective
    (List.append_cancel_left (List.append_cancel_left h))

theorem Pdf.chunkFold_ids (chunkSize : Nat) (docId : JStr) :
    ∀ (ss : List JStr) (chunks : List ChunkData) (cc : JStr) (idx : Nat),
    idx = chunks.length →
    chunks.map (fun c => c.id) = (List.range chunks.length).map (Pdf.chunkId docId) →
    (ss.foldl (Pdf.chunkStep chunkSize docId) (chunks, cc, idx)).2.2
      = (ss.foldl (Pdf.chunkStep chunkSize docId) (chunks, cc, idx)).1.length ∧
    (ss.foldl (Pdf.chunkStep chunkSize docId) (chunks, cc, idx)).1.map (fun c => c.id)
      = (List.range
          (ss.foldl (Pdf.chunkStep chunkSize docId) (chunks, cc, idx)).1.length).map
          (Pdf.chunkId docId) := by
  intro ss
  induction ss with
  | nil => exact fun chunks cc idx h1 h2 => ⟨h1, h2⟩
  | cons s rest ih =>
    intro chunks cc idx h1 h2
    simp only [List.foldl_cons]
    unfold Pdf.chunkStep
    dsimp only
    by_cases hguard : chunkSize < cc.length + (jsTrim s).length ∧ 0 < cc.length
    · rw [if_pos hguard]
      refine ih _ _ _ ?_ ?_
      · simp [h1]
      · subst h1
        simp only [List.map_append, h2, List.length_append, List.length_singleton]
        rw [List.range_succ, List.map_append]
        rfl
    · rw [if_neg hguard]
      exact ih _ _ _ h1 h2

/-! ## Claim C8 -/

/-- C8 (counterexample): the claim says every stored chunk id is a
16-byte random hex value and that no ingestion path assigns sequential
ids.  `PdfService.chunkText` assigns `` `${documentId}_chunk_${i}` ``
with a per-document counter: on a two-chunk document the ids carry the
sequential indices 0 and 1, and are not 32-character hex strings. -/
theorem C8_counterexample :
    (Pdf.chunkText (str ("aa. bb.")) (str ("D")) (str ("f")) 3).map (fun c => c.id)
      = [str ("D_chunk_0"), str ("D_chunk_1")] ∧
    ¬ ((str ("D_chunk_0")).length = 32 ∧
        ∀ c ∈ str ("D_chunk_0"), isHexCh c = true) := by
  exact ⟨by decide, by decide⟩

/-- C8 (amended): the text-context ingestion path does assign 16-byte
random hex ids (32 lowercase hex characters); the PDF path instead
assigns `` `${documentId}_chunk_${i}` `` with a sequential per-document
index — its ids are exactly `chunkId docId 0, 1, …`, pairwise distinct
within a document, and distinct across two documents whose (equal-length)
`documentId`s differ; `generateDocumentId`s built from distinct 8-byte
random values (with same-length timestamps) are such equal-length
distinct ids, so chunks of concurrently ingested documents collide only
if the 8 random bytes collide. -/
theorem C8_amended :
    (∀ bytes : List Nat, bytes.length = 16 → (∀ b ∈ bytes, b < 256) →
       (TCS.generateId bytes).length = 32 ∧
       ∀ c ∈ TCS.generateId bytes, isHexCh c = true) ∧
    (∀ (text docId filename : JStr) (cs : Nat),
       (Pdf.chunkText text docId filename cs).map (fun c => c.id)
         = (List.range (Pdf.chunkText text docId filename cs).length).map
             (Pdf.chunkId docId)) ∧
    (∀ (text docId filename : JStr) (cs : Nat),
       ((Pdf.chunkText text docId filename cs).map (fun c => c.id)).Nodup) ∧
    (∀ (d₁ d₂ : JStr) (i₁ i₂ : Nat), d₁.length = d₂.length → d₁ ≠ d₂ →
       Pdf.chunkId d₁ i₁ ≠ Pdf.chunkId d₂ i₂) ∧
    (∀ (b₁ b₂ : List Nat) (t₁ t₂ : Nat),
       b₁.length = 8 → b₂.length = 8 →
       (∀ b ∈ b₁, b < 256) → (∀ b ∈ b₂, b < 256) →
       (natToDec t₁).length = (natToDec t₂).length → b₁ ≠ b₂ →
       Pdf.generateDocumentId b₁ t₁ ≠ Pdf.generateDocumentId b₂ t₂ ∧
       (Pdf.generateDocumentId b₁ t₁).length
         = (Pdf.generateDocumentId b₂ t₂).length) := by
  have hids : ∀ (text docId filename : JStr) (cs : Nat),
      (Pdf.chunkText text docId filename cs).map (fun c => c.id)
        = (List.range (Pdf.chunkText text docId filename cs).length).map
            (Pdf.chunkId docId) := by
    intro text docId filename cs
    unfold Pdf.chunkText
    dsimp only
    have hfold := Pdf.chunkFold_ids cs docId (sentencePieces text) [] [] 0
      rfl rfl
    set r := (sentencePieces text).foldl (Pdf.chunkStep cs docId) ([], [], 0)
    by_cases hflush : 0 < (jsTrim r.2.1).length
    · rw [if_pos hflush]
      have hne : r.1 ++ [(⟨Pdf.chunkId docId r.2.2, jsTrim r.2.1, []⟩ : ChunkData)] ≠ [] := by
        simp
      rw [if_neg hne]
      simp only [List.map_append, hfold.2, List.length_append, List.length_singleton]
      rw [List.range_succ, List.map_append, hfold.1]
      rfl
    · rw [if_neg hflush]
      by_cases hnil : r.1 = []
      · rw [if_pos hnil]
        rfl
      · rw [if_neg hnil]
        exact hfold.2
  refine ⟨?_, hids, ?_, ?_, ?_⟩
  · intro bytes h16 hb
    constructor
    · unfold TCS.generateId
      rw [hexEncode_length, h16]
    · exact fun c hc => hexEncode_hex bytes hb c hc
  · intro text docId filename cs
    rw [hids text docId filename cs]
    exact (List.nodup_range _).map (Pdf.chunkId_injective docId)
  · intro d₁ d₂ i₁ i₂ hlen hne h
    unfold Pdf.chunkId at h
    simp only [List.append_assoc] at h
    exact hne (List.append_inj h hlen).1
  · intro b₁ b₂ t₁ t₂ h₁8 h₂8 hb₁ hb₂ hts hne
    constructor
    · intro h
      unfold Pdf.generateDocumentId at h
      simp only [List.append_assoc] at h
      have h2 := List.append_cancel_left h
      have h3 := List.append_inj h2 (by rw [hexEncode_length, hexEncode_length, h₁8, h₂8])
      exact hne (hexEncode_inj b₁ b₂ (by rw [h₁8, h₂8]) hb₁ hb₂ h3.1)
    · unfold Pdf.generateDocumentId
      simp only [List.length_append, hexEncode_length, h₁8, h₂8, hts]

/-- C8 (witness): the amended statement at concrete inputs — a concrete
16-byte id is 32 hex characters; a two-chunk PDF document gets the
sequential ids `D_chunk_0`, `D_chunk_1` with no duplicates; two
equal-length distinct document ids never share a chunk id. -/
theorem C8_witness :
    ((TCS.generateId [0, 1, 2, 3, 4, 5, 6, 7, 8, 9, 10, 11, 12, 13, 14, 15]).length
        = 32 ∧
      ∀ c ∈ TCS.generateId [0, 1, 2, 3, 4, 5, 6, 7, 8, 9, 10, 11, 12, 13, 14, 15],
        isHexCh c = true) ∧
    ((Pdf.chunkText (str ("aa. bb.")) (str ("D")) (str ("f")) 3).map (fun c => c.id)).Nodup ∧
    Pdf.chunkId (str ("D1")) 0 ≠ Pdf.chunkId (str ("D2")) 0 := by
  refine ⟨?_, ?_, ?_⟩
  · exact C8_amended.1 [0, 1, 2, 3, 4, 5, 6, 7, 8, 9, 10, 11, 12, 13, 14, 15]
      (by decide) (by decide)
  · exact C8_amended.2.2.1 (str ("aa. bb.")) (str ("D")) (str ("f")) 3
  · exact C8_amended.2.2.2.1 (str ("D1")) (str ("D2")) 0 0 (by decide) (by decide)

/-! ## Helper lemmas: splitting and rejoining sentences -/

theorem splitOnP_ne_nil (p : Char → Bool) (l : JStr) : splitOnP p l ≠ [] := by
  cases l with
  | nil => simp [splitOnP]
  | cons c rest =>
    unfold splitOnP
    dsimp only
    split <;> simp

theorem splitOnP_term_cons (p : Char → Bool) (c : Char) (l : JStr)
    (hc : p c = true) : splitOnP p (c :: l) = [] :: splitOnP p l := by
  simp [splitOnP, hc]

theorem splitOnP_nonterm_cons (p : Char → Bool) (c : Char) (l : JStr)
    (hc : p c = false) :
    splitOnP p (c :: l) = (c :: (splitOnP p l).headD []) :: (splitOnP p l).tail := by
  simp [splitOnP, hc]

theorem splitOnP_clean_append (p : Char → Bool) (s l : JStr)
    (hs : ∀ c ∈ s, p c = false) :
    splitOnP p (s ++ l)
      = (s ++ (splitOnP p l).headD []) :: (splitOnP p l).tail := by
  induction s with
  | nil =>
    match h : splitOnP p l with
    | [] => exact absurd h (splitOnP_ne_nil p l)
    | a :: as => simp [h]
  | cons c s' ih =>
    have hc : p c = false := hs c (List.mem_cons_self c s')
    have ih' := ih (fun x hx => hs x (List.mem_cons_of_mem c hx))
    rw [List.cons_append, splitOnP_nonterm_cons p c (s' ++ l) hc, ih']
    simp

theorem joinSep_foldl_pull (sep : JStr) :
    ∀ (l : List JStr) (pre acc : JStr),
    l.foldl (fun a b => a ++ sep ++ b) (pre ++ acc)
      = pre ++ l.foldl (fun a b => a ++ sep ++ b) acc := by
  intro l
  induction l with
  | nil => intro pre acc; rfl
  | cons x rest ih =>
    intro pre acc
    simp only [List.foldl_cons]
    rw [List.append_assoc pre acc sep, List.append_assoc pre (acc ++ sep) x]
    exact ih pre (acc ++ sep ++ x)

theorem joinSep_cons_cons (sep : JStr) (x y : JStr) (rest : List JStr) :
    joinSep sep (x :: y :: rest) = x ++ sep ++ joinSep sep (y :: rest) := by
  show (y :: rest).foldl (fun a b => a ++ sep ++ b) x
    = x ++ sep ++ rest.foldl (fun a b => a ++ sep ++ b) y
  simp only [List.foldl_cons]
  exact joinSep_foldl_pull sep rest (x ++ sep) y

theorem splitOnP_joinDot :
    ∀ (ss : List JStr), ss ≠ [] →
    (∀ s ∈ ss, ∀ c ∈ s, isTermC c = false) →
    splitOnP isTermC (joinSep (str (". ")) ss ++ ['.']) = piecesOf ss := by
  intro ss
  induction ss with
  | nil => intro h _; exact absurd rfl h
  | cons s rest ih =>
    intro _ hclean
    have hsclean : ∀ c ∈ s, isTermC c = false :=
      hclean s (List.mem_cons_self s rest)
    match rest with
    | [] =>
      show splitOnP isTermC (s ++ ['.']) = piecesOf [s]
      rw [splitOnP_clean_append isTermC s ['.'] hsclean]
      have hdot : splitOnP isTermC ['.'] = [[], []] := by decide
      rw [hdot]
      simp [piecesOf]
    | t :: rest₂ =>
      have hrestclean : ∀ x ∈ t :: rest₂, ∀ c ∈ x, isTermC c = false :=
        fun x hx => hclean x (List.mem_cons_of_mem s hx)
      have ihrest := ih (by simp) hrestclean
      rw [joinSep_cons_cons]
      have hshape : s ++ str (". ") ++ joinSep (str (". ")) (t :: rest₂) ++ ['.']
          = s ++ ('.' :: ' ' :: (joinSep (str (". ")) (t :: rest₂) ++ ['.'])) := by
        simp [str, List.append_assoc]
      rw [hshape, splitOnP_clean_append isTermC s _ hsclean]
      rw [splitOnP_term_cons isTermC '.' _ (by decide)]
      rw [splitOnP_nonterm_cons isTermC ' ' _ (by decide)]
      rw [ihrest]
      simp [piecesOf]

theorem jsTrim_ws_cons (c : Char) (l : JStr) (hc : isJsWs c = true) :
    jsTrim (c :: l) = jsTrim l := by
  unfold jsTrim
  simp [List.dropWhile_cons, hc]

theorem sentencePieces_joinDot (s : JStr) (rest : List JStr)
    (hclean : ∀ x ∈ s :: rest, x ≠ [] ∧ jsTrim x = x ∧ ∀ c ∈ x, isTermC c = false) :
    sentencePieces (joinSep (str (". ")) (s :: rest) ++ ['.'])
      = s :: rest.map (fun x => ' ' :: x) := by
  unfold sentencePieces
  rw [splitOnP_joinDot (s :: rest) (by simp) (fun x hx => (hclean x hx).2.2)]
  simp only [piecesOf]
  have hhead := hclean s (List.mem_cons_self s rest)
  rw [List.filter_cons_of_pos (by
    rw [hhead.2.1]
    simpa using List.length_pos.mpr hhead.1)]
  congr 1
  rw [List.filter_append]
  have h2 : List.filter (fun s => decide (0 < (jsTrim s).length)) [([] : JStr)] = [] := by
    decide
  rw [h2, List.append_nil]
  rw [List.filter_eq_self]
  intro a ha
  rw [List.mem_map] at ha
  obtain ⟨x, hx, rfl⟩ := ha
  have hxc := hclean x (List.mem_cons_of_mem s hx)
  rw [jsTrim_ws_cons ' ' x (by decide), hxc.2.1]
  simpa using List.length_pos.mpr hxc.1

theorem TCS.chunkStep_ws (chunkSize overlap : Nat) (st : List JStr × JStr)
    (x : JStr) :
    TCS.chunkStep chunkSize overlap st (' ' :: x)
      = TCS.chunkStep chunkSize overlap st x := by
  unfold TCS.chunkStep
  rw [jsTrim_ws_cons ' ' x (by decide)]

theorem TCS.chunkFold_ws (chunkSize overlap : Nat) :
    ∀ (l : List JStr) (st : List JStr × JStr),
    (l.map (fun x => ' ' :: x)).foldl (TCS.chunkStep chunkSize overlap) st
      = l.foldl (TCS.chunkStep chunkSize overlap) st := by
  intro l
  induction l with
  | nil => intro st; rfl
  | cons x rest ih =>
    intro st
    simp only [List.map_cons, List.foldl_cons, TCS.chunkStep_ws]
    exact ih _

theorem TCS.chunkFold_append (chunkSize overlap : Nat) :
    ∀ (rest : List JStr) (cc : JStr), cc ≠ [] →
    (∀ x ∈ rest, jsTrim x = x) →
    (rest.foldl (fun a x => a ++ str (". ") ++ x) cc).length ≤ chunkSize →
    rest.foldl (TCS.chunkStep chunkSize overlap) ([], cc)
      = ([], rest.foldl (fun a x => a ++ str (". ") ++ x) cc) := by
  intro rest
  induction rest with
  | nil => intro cc _ _ _; rfl
  | cons x rest' ih =>
    intro cc hcc htrim hlen
    rw [List.foldl_cons] at hlen ⊢
    have hacc := joinSep_acc_length (str (". ")) rest' (cc ++ str (". ") ++ x)
    have hguard : cc.length + (jsTrim x).length ≤ chunkSize := by
      rw [htrim x (List.mem_cons_self x rest')]
      have hl : (cc ++ str (". ") ++ x).length = cc.length + 2 + x.length := by
        simp [str]
        omega
      omega
    have hstep : TCS.chunkStep chunkSize overlap ([], cc) x
        = ([], cc ++ str (". ") ++ x) := by
      unfold TCS.chunkStep
      dsimp only
      rw [if_pos hguard, if_neg hcc, htrim x (List.mem_cons_self x rest')]
    rw [hstep]
    exact ih (cc ++ str (". ") ++ x) (by simp [str]) 
      (fun y hy => htrim y (List.mem_cons_of_mem x hy)) hlen

/-! ## Claim C7 -/

/-- C7 (counterexample): the claim says re-chunking any single in-budget
chunk reproduces it modulo trailing punctuation.  With
`chunkText("abcdefgh. ij. kl.", 10, 5)` the overlap seeding slices the
previous chunk mid-sentence and emits the chunk `". ij. kl."` (length 9,
below the threshold 10); re-chunking that chunk yields `"ij. kl."` — the
leading overlap residue `". "` is lost, a difference that trailing
punctuation normalization does not account for. -/
theorem C7_counterexample :
    TCS.chunkText (str ("abcdefgh. ij. kl.")) 10 5
      = [str ("abcdefgh. ij."), str (". ij. kl.")] ∧
    (str (". ij. kl.")).length < 10 ∧
    TCS.chunkText (str (". ij. kl.")) 10 5 = [str ("ij. kl.")] ∧
    dropTrailingTerm (str ("ij. kl.")) ≠ dropTrailingTerm (str (". ij. kl.")) := by
  exact ⟨by decide, by decide, by decide, by decide⟩

/-- C7 (amended): idempotence does hold for chunks that are a `". "`-join
of trimmed, terminator-free, non-empty sentences followed by a final
`'.'` — the shape of every chunk assembled without overlap seeding: if
the joined text fits the budget, re-chunking the chunk returns exactly
that one chunk.  Chunks that begin with overlap residue (leading
punctuation or whitespace) are not restored verbatim, as the
counterexample shows. -/
theorem C7_amended (ss : List JStr) (chunkSize overlap : Nat)
    (hne : ss ≠ [])
    (hclean : ∀ s ∈ ss, s ≠ [] ∧ jsTrim s = s ∧ ∀ c ∈ s, isTermC c = false)
    (hlen : (joinSep (str (". ")) ss).length ≤ chunkSize) :
    TCS.chunkText (joinSep (str (". ")) ss ++ ['.']) chunkSize overlap
      = [joinSep (str (". ")) ss ++ ['.']] := by
  match ss, hne with
  | s :: rest, _ =>
    have hs := hclean s (List.mem_cons_self s rest)
    have hjoined : joinSep (str (". ")) (s :: rest)
        = rest.foldl (fun a x => a ++ str (". ") ++ x) s := rfl
    have hslen : s.length ≤ chunkSize := by
      have := joinSep_acc_length (str (". ")) rest s
      rw [hjoined] at hlen
      omega
    have hstep1 : TCS.chunkStep chunkSize overlap ([], []) s = ([], s) := by
      unfold TCS.chunkStep
      dsimp only
      rw [hs.2.1, if_pos (by simpa using hslen)]
      simp
    unfold TCS.chunkText
    rw [sentencePieces_joinDot s rest hclean]
    dsimp only
    rw [List.foldl_cons, hstep1, TCS.chunkFold_ws, TCS.chunkFold_append chunkSize
      overlap rest s hs.1 (fun y hy => (hclean y (List.mem_cons_of_mem s hy)).2.1)
      (by rw [hjoined] at hlen; exact hlen)]
    rw [← hjoined]
    have hne2 : joinSep (str (". ")) (s :: rest) ≠ [] :=
      joinSep_ne_nil (str (". ")) s rest hs.1
    rw [if_neg hne2]
    rfl

/-- C7 (witness): re-chunking the in-budget chunk `"ab. cd."` (the join
of the clean sentences `ab`, `cd`) with the default budget reproduces
exactly that chunk. -/
theorem C7_witness :
    TCS.chunkText (joinSep (str (". ")) [str ("ab"), str ("cd")] ++ ['.']) 500 50
      = [joinSep (str (". ")) [str ("ab"), str ("cd")] ++ ['.']] :=
  C7_amended [str ("ab"), str ("cd")] 500 50 (by decide)
    (by decide) (by decide)
